import Mathlib

/-!
# seer-go: the function analyzer of `pars/parser.go`

A shallow embedding of `pars/parser.go` (package `pars` of `gpr3211/seer-go`) and
theorems about it.

The program is built on library packages that are not part of the repository:

* `go/ast`: the syntax tree and its traversal `ast.Walk` / `ast.Inspect`.  The tree is
  embedded as the inductive types below, for the node kinds listed there (the other kinds
  of `go/ast`, such as switch and select statements, composite literals and type
  expressions, are traversed by `ast.Walk` in the same manner and are left out).  `Walk`
  follows the child order of `ast.Walk`: it calls the visitor on a node, then traverses
  the children, which reads the fields of the node, then calls the visitor on nil.
  A run-time panic is a result `Except.error`.
* `go/printer`: `printer.Fprint`.  Its dispatch on the kind of node is embedded in
  `Fprint`: expressions, statements and declarations are printed; for every other
  argument (the nil interface, a `*ast.FieldList`) an error is returned and nothing is
  written.  The text printed for a supported node is a parameter (`Lib`).
* `fmt`: the verbs `%s` and `%v` applied to an expression node, embedded in `sprintS` and
  `sprintV`.
* `path/filepath`, `os`, `go/parser`: the enumeration of a directory tree is the list of
  the calls of the callback; the content of a file and the parser are parameters.
* `go/token`: the file set of a walk is its base, the position of the first byte of the
  next file; `parser.ParseFile` adds the file it is given to the file set before it
  parses, whether or not the parse succeeds, and the tree it returns depends on the base.

A Go map is an association list with one entry per key; the loop over a map runs in list
order, and the theorems about such a loop hold for every order.  Standard output is part
of the state only in `extractVariables`, whose diagnostic lines are returned next to the
variables.
-/

namespace SeerGo

/-! ## Syntax trees (`go/ast`) -/

/-- Token kind of a basic literal (`token.Token`), with its `String` method. -/
inductive Kind
  | INT | FLOAT | IMAG | CHAR | STRING
  deriving DecidableEq, Repr

/-- Text of `token.Token.String` on a literal kind. -/
def Kind.toString : Kind → String
  | .INT => "INT"
  | .FLOAT => "FLOAT"
  | .IMAG => "IMAG"
  | .CHAR => "CHAR"
  | .STRING => "STRING"

/-- An `*ast.Ident`: position and name. -/
structure Ident where
  NamePos : Nat
  Name : String
  deriving DecidableEq, Repr

/-- An `*ast.CommentGroup`: the texts of its comments. -/
structure CommentGroup where
  list : List String
  deriving DecidableEq, Repr

mutual
/-- Expressions (`ast.Expr`): identifiers, basic literals, function literals,
parenthesised, selector, index, call, star, unary and binary expressions. -/
inductive Expr
  | ident (id : Ident)
  | basicLit (ValuePos : Nat) (kind : Kind) (Value : String)
  | funcLit (Typ : FuncType) (Body : Block)
  | paren (X : Expr)
  | selector (X : Expr) (Sel : Ident)
  | index (X : Expr) (Index : Expr)
  | call (Fun : Expr) (Args : List Expr)
  | star (X : Expr)
  | unary (Op : String) (X : Expr)
  | binary (X : Expr) (Op : String) (Y : Expr)
/-- A field of a parameter, result or receiver list (`*ast.Field`). -/
inductive Field
  | mk (Names : List Ident) (Typ : Expr)
/-- A field list (`*ast.FieldList`). -/
inductive FieldList
  | mk (list : List Field)
/-- A function signature (`*ast.FuncType`); `Results` may be nil. -/
inductive FuncType
  | mk (Params : FieldList) (Results : Option FieldList)
/-- A `*ast.ValueSpec` of a `var` or `const` declaration. -/
inductive ValueSpec
  | mk (Names : List Ident) (Typ : Option Expr) (Values : List Expr)
/-- A `*ast.GenDecl` with token `var` or `const`. -/
inductive GenDecl
  | mk (Tok : String) (Specs : List ValueSpec)
/-- Statements (`ast.Stmt`).  The declaration of a `DeclStmt` is a `*ast.GenDecl`. -/
inductive Stmt
  | assign (Lhs : List Expr) (Tok : String) (Rhs : List Expr)
  | declStmt (Decl : GenDecl)
  | exprStmt (X : Expr)
  | incDec (X : Expr) (Tok : String)
  | ret (Results : List Expr)
  | block (b : Block)
  | ifStmt (Init : Option Stmt) (Cond : Expr) (Body : Block) (Else : Option Stmt)
  | forStmt (Init : Option Stmt) (Cond : Option Expr) (Post : Option Stmt) (Body : Block)
  | rangeStmt (Key : Option Expr) (Value : Option Expr) (X : Expr) (Body : Block)
/-- A block (`*ast.BlockStmt`). -/
inductive Block
  | mk (list : List Stmt)
end

/-- Top-level declarations (`ast.Decl`): `*ast.FuncDecl` and `*ast.GenDecl`. -/
inductive Decl
  | funcDecl (Doc : Option CommentGroup) (Recv : Option FieldList) (Name : Ident)
      (Typ : FuncType) (Body : Option Block)
  | genDecl (d : GenDecl)

/-- A parsed file (`*ast.File`): package name and declarations. -/
structure File where
  Name : Ident
  Decls : List Decl

/-- The value handed to a visitor (`ast.Node`): the nil interface, a node, or the nil
pointer of type `*ast.BlockStmt` (an interface value that is not nil). -/
inductive Node
  | nil
  | comment (text : String)
  | commentGroup (g : CommentGroup)
  | field (f : Field)
  | fieldList (l : FieldList)
  | expr (e : Expr)
  | funcType (t : FuncType)
  | valueSpec (s : ValueSpec)
  | genDecl (d : GenDecl)
  | stmt (s : Stmt)
  | block (b : Block)
  | nilBlock
  | decl (d : Decl)
  | file (f : File)

/-- A run-time panic. -/
inductive Panic
  | nilDereference
  | indexOutOfRange
  | unexpectedNode
  deriving DecidableEq, Repr

/-- A visitor with its state passed explicitly: `v n s` is `v.Visit(n)` in state `s`; the
flag tells whether a visitor was returned (the traversal descends) or nil. -/
abbrev Visitor (σ : Type) := Node → σ → Except Panic (σ × Bool)

/-- Visit of a node without children: `Visit(node)`, then `Visit(nil)` if a visitor was
returned. -/
def walkLeaf {σ : Type} (v : Visitor σ) (n : Node) (s : σ) : Except Panic σ := do
  let (s, go) ← v n s
  if go then
    let (s, _) ← v .nil s
    pure s
  else pure s

/-- Traversal of a comment group. -/
def walkCommentGroup {σ : Type} (v : Visitor σ) (g : CommentGroup) (s : σ) : Except Panic σ := do
  let (s, go) ← v (.commentGroup g) s
  if go then
    let s ← g.list.foldlM (fun s c => walkLeaf v (.comment c) s) s
    let (s, _) ← v .nil s
    pure s
  else pure s

/-- Traversal of a list of identifiers. -/
def walkIdents {σ : Type} (v : Visitor σ) (ids : List Ident) (s : σ) : Except Panic σ :=
  ids.foldlM (fun s id => walkLeaf v (.expr (.ident id)) s) s

mutual
/-- Traversal `ast.Walk(v, e)` of an expression. -/
def walkExpr {σ : Type} (v : Visitor σ) (e : Expr) (s : σ) : Except Panic σ := do
  let (s, go) ← v (.expr e) s
  if go then
    let s ← (match e with
      | .ident _ => pure s
      | .basicLit _ _ _ => pure s
      | .funcLit t b => do
          let s ← walkFuncType v t s
          walkBlock v b s
      | .paren x => walkExpr v x s
      | .selector x sel => do
          let s ← walkExpr v x s
          walkLeaf v (.expr (.ident sel)) s
      | .index x i => do
          let s ← walkExpr v x s
          walkExpr v i s
      | .call f args => do
          let s ← walkExpr v f s
          walkExprs v args s
      | .star x => walkExpr v x s
      | .unary _ x => walkExpr v x s
      | .binary x _ y => do
          let s ← walkExpr v x s
          walkExpr v y s)
    let (s, _) ← v .nil s
    pure s
  else pure s
/-- Traversal of a list of expressions, in order. -/
def walkExprs {σ : Type} (v : Visitor σ) (es : List Expr) (s : σ) : Except Panic σ :=
  match es with
  | [] => pure s
  | e :: rest => do
      let s ← walkExpr v e s
      walkExprs v rest s
/-- Traversal of an expression that may be nil: skipped when nil. -/
def walkOptExpr {σ : Type} (v : Visitor σ) (e : Option Expr) (s : σ) : Except Panic σ :=
  match e with
  | none => pure s
  | some e => walkExpr v e s
/-- Traversal of a field: names, then type. -/
def walkField {σ : Type} (v : Visitor σ) (f : Field) (s : σ) : Except Panic σ := do
  let (s, go) ← v (.field f) s
  if go then
    let s ← (match f with
      | .mk names t => do
          let s ← walkIdents v names s
          walkExpr v t s)
    let (s, _) ← v .nil s
    pure s
  else pure s
/-- Traversal of a list of fields, in order. -/
def walkFields {σ : Type} (v : Visitor σ) (fs : List Field) (s : σ) : Except Panic σ :=
  match fs with
  | [] => pure s
  | f :: rest => do
      let s ← walkField v f s
      walkFields v rest s
/-- Traversal of a field list. -/
def walkFieldList {σ : Type} (v : Visitor σ) (l : FieldList) (s : σ) : Except Panic σ := do
  let (s, go) ← v (.fieldList l) s
  if go then
    let s ← (match l with
      | .mk fs => walkFields v fs s)
    let (s, _) ← v .nil s
    pure s
  else pure s
/-- Traversal of a field list that may be nil. -/
def walkOptFieldList {σ : Type} (v : Visitor σ) (l : Option FieldList) (s : σ) :
    Except Panic σ :=
  match l with
  | none => pure s
  | some l => walkFieldList v l s
/-- Traversal of a function signature: parameters, then results when present. -/
def walkFuncType {σ : Type} (v : Visitor σ) (t : FuncType) (s : σ) : Except Panic σ := do
  let (s, go) ← v (.funcType t) s
  if go then
    let s ← (match t with
      | .mk params results => do
          let s ← walkFieldList v params s
          walkOptFieldList v results s)
    let (s, _) ← v .nil s
    pure s
  else pure s
/-- Traversal of a value specification: names, type when present, values. -/
def walkValueSpec {σ : Type} (v : Visitor σ) (sp : ValueSpec) (s : σ) : Except Panic σ := do
  let (s, go) ← v (.valueSpec sp) s
  if go then
    let s ← (match sp with
      | .mk names t values => do
          let s ← walkIdents v names s
          let s ← walkOptExpr v t s
          walkExprs v values s)
    let (s, _) ← v .nil s
    pure s
  else pure s
/-- Traversal of a list of value specifications. -/
def walkValueSpecs {σ : Type} (v : Visitor σ) (sps : List ValueSpec) (s : σ) :
    Except Panic σ :=
  match sps with
  | [] => pure s
  | sp :: rest => do
      let s ← walkValueSpec v sp s
      walkValueSpecs v rest s
/-- Traversal of a general declaration. -/
def walkGenDecl {σ : Type} (v : Visitor σ) (d : GenDecl) (s : σ) : Except Panic σ := do
  let (s, go) ← v (.genDecl d) s
  if go then
    let s ← (match d with
      | .mk _ specs => walkValueSpecs v specs s)
    let (s, _) ← v .nil s
    pure s
  else pure s
/-- Traversal `ast.Walk(v, st)` of a statement. -/
def walkStmt {σ : Type} (v : Visitor σ) (st : Stmt) (s : σ) : Except Panic σ :=
  match st with
  | .block b => walkBlock v b s
  | .assign lhs tok rhs => do
      let (s, go) ← v (.stmt (.assign lhs tok rhs)) s
      if go then
        let s ← walkExprs v lhs s
        let s ← walkExprs v rhs s
        let (s, _) ← v .nil s
        pure s
      else pure s
  | .declStmt d => do
      let (s, go) ← v (.stmt (.declStmt d)) s
      if go then
        let s ← walkGenDecl v d s
        let (s, _) ← v .nil s
        pure s
      else pure s
  | .exprStmt x => do
      let (s, go) ← v (.stmt (.exprStmt x)) s
      if go then
        let s ← walkExpr v x s
        let (s, _) ← v .nil s
        pure s
      else pure s
  | .incDec x tok => do
      let (s, go) ← v (.stmt (.incDec x tok)) s
      if go then
        let s ← walkExpr v x s
        let (s, _) ← v .nil s
        pure s
      else pure s
  | .ret results => do
      let (s, go) ← v (.stmt (.ret results)) s
      if go then
        let s ← walkExprs v results s
        let (s, _) ← v .nil s
        pure s
      else pure s
  | .ifStmt init cond body els => do
      let (s, go) ← v (.stmt (.ifStmt init cond body els)) s
      if go then
        let s ← walkOptStmt v init s
        let s ← walkExpr v cond s
        let s ← walkBlock v body s
        let s ← walkOptStmt v els s
        let (s, _) ← v .nil s
        pure s
      else pure s
  | .forStmt init cond post body => do
      let (s, go) ← v (.stmt (.forStmt init cond post body)) s
      if go then
        let s ← walkOptStmt v init s
        let s ← walkOptExpr v cond s
        let s ← walkOptStmt v post s
        let s ← walkBlock v body s
        let (s, _) ← v .nil s
        pure s
      else pure s
  | .rangeStmt key value x body => do
      let (s, go) ← v (.stmt (.rangeStmt key value x body)) s
      if go then
        let s ← walkOptExpr v key s
        let s ← walkOptExpr v value s
        let s ← walkExpr v x s
        let s ← walkBlock v body s
        let (s, _) ← v .nil s
        pure s
      else pure s
/-- Traversal of a statement that may be nil: skipped when nil. -/
def walkOptStmt {σ : Type} (v : Visitor σ) (st : Option Stmt) (s : σ) : Except Panic σ :=
  match st with
  | none => pure s
  | some st => walkStmt v st s
/-- Traversal of a list of statements, in order. -/
def walkStmts {σ : Type} (v : Visitor σ) (sts : List Stmt) (s : σ) : Except Panic σ :=
  match sts with
  | [] => pure s
  | st :: rest => do
      let s ← walkStmt v st s
      walkStmts v rest s
/-- Traversal `ast.Walk(v, b)` of a block that is not nil. -/
def walkBlock {σ : Type} (v : Visitor σ) (b : Block) (s : σ) : Except Panic σ := do
  let (s, go) ← v (.block b) s
  if go then
    let s ← (match b with
      | .mk list => walkStmts v list s)
    let (s, _) ← v .nil s
    pure s
  else pure s
end

/-- Traversal of a top-level declaration.  For a function declaration: documentation and
receiver when present, name, signature, and the body when it is not nil. -/
def walkDecl {σ : Type} (v : Visitor σ) (d : Decl) (s : σ) : Except Panic σ :=
  match d with
  | .genDecl g => walkGenDecl v g s
  | .funcDecl doc recv name typ body => do
      let (s, go) ← v (.decl (.funcDecl doc recv name typ body)) s
      if go then
        let s ← (match doc with
          | none => pure s
          | some g => walkCommentGroup v g s)
        let s ← walkOptFieldList v recv s
        let s ← walkLeaf v (.expr (.ident name)) s
        let s ← walkFuncType v typ s
        let s ← (match body with
          | none => pure s
          | some b => walkBlock v b s)
        let (s, _) ← v .nil s
        pure s
      else pure s

/-- Traversal of a file: package name, then the declarations in order. -/
def walkFile {σ : Type} (v : Visitor σ) (f : File) (s : σ) : Except Panic σ := do
  let (s, go) ← v (.file f) s
  if go then
    let s ← walkLeaf v (.expr (.ident f.Name)) s
    let s ← f.Decls.foldlM (fun s d => walkDecl v d s) s
    let (s, _) ← v .nil s
    pure s
  else pure s

/-- Translation of `ast.Walk(v, node)`: the visitor is called on `node`; when it returns a
visitor the children are traversed, which reads the fields of `node`, and the visitor is
called on nil.  On the nil `*ast.BlockStmt` the read of the statement list is a nil
dereference; the nil interface is no node kind and `Walk` panics on it as well. -/
def Walk {σ : Type} (v : Visitor σ) (node : Node) (s : σ) : Except Panic σ :=
  match node with
  | .nil => do
      let (s, go) ← v .nil s
      if go then throw .unexpectedNode else pure s
  | .comment c => walkLeaf v (.comment c) s
  | .commentGroup g => walkCommentGroup v g s
  | .field f => walkField v f s
  | .fieldList l => walkFieldList v l s
  | .expr e => walkExpr v e s
  | .funcType t => walkFuncType v t s
  | .valueSpec sp => walkValueSpec v sp s
  | .genDecl d => walkGenDecl v d s
  | .stmt st => walkStmt v st s
  | .block b => walkBlock v b s
  | .nilBlock => do
      let (s, go) ← v .nilBlock s
      if go then throw .nilDereference else pure s
  | .decl d => walkDecl v d s
  | .file f => walkFile v f s

/-- Translation of `ast.Inspect(node, f)`: `Walk` with `f` as the visitor. -/
def Inspect {σ : Type} (node : Node) (f : Visitor σ) (s : σ) : Except Panic σ :=
  Walk f node s

/-! ## File sets (`go/token`) -/

/-- A `*token.FileSet`, as far as the program uses it: the base for the next file. -/
structure FileSet where
  base : Nat
  deriving DecidableEq, Repr

/-- Translation of `token.NewFileSet()`: the base starts at 1. -/
def NewFileSet : FileSet := { base := 1 }

/-- Translation of `fset.AddFile(filename, -1, size)`, on the base: the file takes the
positions from the base on and the base moves past them, one more for the end of file. -/
def FileSet.AddFile (fset : FileSet) (size : Nat) : FileSet :=
  { base := fset.base + size + 1 }

/-! ## Library capabilities -/

/-- The library functions the program is linked against, as far as their results are not
fixed by the embedding. -/
structure Lib where
  /-- Text printed by `go/printer` for an expression. -/
  printExpr : Expr → String
  /-- Text printed by `go/printer` for a statement. -/
  printStmt : Stmt → String
  /-- Text printed by `go/printer` for a declaration. -/
  printDecl : GenDecl → String
  /-- Text of `(*ast.CommentGroup).Text`. -/
  commentText : CommentGroup → String
  /-- Text of `fmt`'s verb `%s` for an expression node that is neither an identifier nor a
  basic literal (it contains the addresses of the node's children). -/
  sprintOther : Expr → String
  /-- Text of `fmt.Sprint` (the verb `%v`) for an expression node that is neither an
  identifier nor a basic literal. -/
  sprintVOther : Expr → String
  /-- Result of `parser.ParseFile(fset, path, src, parser.ParseComments)` on a file set,
  a path and a file content; the positions of the tree start at the base of the file
  set. -/
  parseFile : FileSet → String → String → Except String File

/-- The argument of `printer.Fprint`, an `any`: the nil interface, an expression, a
statement, a declaration, or a field list. -/
inductive PrintArg
  | nil
  | expr (e : Expr)
  | stmt (s : Stmt)
  | decl (d : GenDecl)
  | fieldList (l : FieldList)

/-- Dispatch of `printer.Fprint(&buf, fset, node)` on the kind of `node`: the text appended
to the buffer.  Expressions, statements and declarations are printed; for any other
argument `Fprint` returns the error `unsupported node type` and writes nothing (every
caller in `parser.go` drops the error). -/
def Fprint (L : Lib) (buf : String) (node : PrintArg) : String :=
  match node with
  | .expr e => buf ++ L.printExpr e
  | .stmt s => buf ++ L.printStmt s
  | .decl d => buf ++ L.printDecl d
  | .nil => buf
  | .fieldList _ => buf

/-- An expression that may be nil, as an argument of `Fprint`. -/
def PrintArg.ofExpr : Option Expr → PrintArg
  | none => .nil
  | some e => .expr e

/-- A statement that may be nil, as an argument of `Fprint`. -/
def PrintArg.ofStmt : Option Stmt → PrintArg
  | none => .nil
  | some s => .stmt s

/-- Text of `fmt.Sprintf("%s", e)` for an expression node `e`: an identifier has a
`String` method and prints its name; a `*ast.BasicLit` has none and is printed as a pointer
to a struct, field by field, where `%s` is a bad verb for the position (an integer), the
kind prints through its `String` method and the value is a string. -/
def sprintS (L : Lib) : Expr → String
  | .ident id => id.Name
  | .basicLit pos kind value =>
      "&\x7b%!s(token.Pos=" ++ toString pos ++ ") " ++ kind.toString ++ " " ++ value ++ "\x7d"
  | e => L.sprintOther e

/-- Text of `fmt.Sprint(e)` for an expression node `e`: an identifier prints its name
through its `String` method; a `*ast.BasicLit` is printed as a pointer to a struct, field
by field with the verb `%v`. -/
def sprintV (L : Lib) : Expr → String
  | .ident id => id.Name
  | .basicLit pos kind value =>
      "&\x7b" ++ toString pos ++ " " ++ kind.toString ++ " " ++ value ++ "\x7d"
  | e => L.sprintVOther e

/-! ## `pars/parser.go` -/

/-- Translation of `exprToString`. -/
def exprToString (L : Lib) (expr : Option Expr) : String :=
  match expr with
  | none => "<nil>"
  | some e => Fprint L "" (.expr e)

/-- Translation of `StmtToString`. -/
def StmtToString (L : Lib) (stmt : Option Stmt) : String :=
  match stmt with
  | none => "<nil>"
  | some (.assign lhs _ rhs) =>
      let buf := "Assignment: "
      let buf := lhs.foldl (fun buf l => buf ++ (sprintS L l ++ " ")) buf
      let buf := buf ++ "= "
      rhs.foldl (fun buf r => buf ++ (sprintS L r ++ " ")) buf
  | some (.declStmt d) => Fprint L "Declaration: " (.decl d)
  | some (.exprStmt x) => Fprint L "Expression: " (.expr x)
  | some (.ifStmt _ cond _ _) => Fprint L "If Condition: " (.expr cond)
  | some (.forStmt init cond post _) =>
      let buf := Fprint L "For Loop: Init: " (.ofStmt init)
      let buf := Fprint L (buf ++ "; Cond: ") (.ofExpr cond)
      Fprint L (buf ++ "; Post: ") (.ofStmt post)
  | some s => Fprint L "" (.stmt s)

/-- The body of the loop of `FuncTypeToString` over `funcType.Params.List`;
`field.Names[0]` is an index into the names of the field. -/
def paramStep (L : Lib) (buf : String) (field : Field) : Except Panic String :=
  match field with
  | .mk names typ =>
      match names[0]? with
      | none => throw Panic.indexOutOfRange
      | some name0 => pure (buf ++ (name0.Name ++ " " ++ sprintV L typ ++ ", "))

/-- The body of the loop of `FuncTypeToString` over `funcType.Results.List`. -/
def resultStep (L : Lib) (buf : String) (result : Field) : String :=
  match result with
  | .mk _ typ => buf ++ (sprintV L typ ++ ", ")

/-- Translation of `FuncTypeToString`, for a signature whose `Params` is not nil (the
parser always sets it). -/
def FuncTypeToString (L : Lib) (funcType : FuncType) : Except Panic String :=
  match funcType with
  | .mk (.mk params) results => do
      let buf := "Parameters: "
      let buf ← params.foldlM (paramStep L) buf
      match results with
      | none => pure buf
      | some (.mk list) =>
          let buf := buf ++ " | Returns: "
          pure (list.foldl (resultStep L) buf)

/-- Translation of `VariableDetails`. -/
structure VariableDetails where
  Name : String
  Typ : String
  deriving DecidableEq, Repr

/-- Translation of `FunctionDetails`. -/
structure FunctionDetails where
  Doc : String
  Recv : String
  Name : String
  Typ : FuncType
  Variables : List VariableDetails
  Body : Option Block

/-- Translation of `extractDoc`. -/
def extractDoc (L : Lib) (doc : Option CommentGroup) : String :=
  match doc with
  | none => ""
  | some g => L.commentText g

/-- Translation of `fieldListToString`. -/
def fieldListToString (L : Lib) (fl : Option FieldList) : String :=
  match fl with
  | none => ""
  | some (.mk list) =>
      if list.length = 0 then ""
      else Fprint L "" (.fieldList (.mk list))

/-- State of the closure of `extractVariables`: the variables collected so far and the
lines written to standard output. -/
structure ExtractState where
  vars : List VariableDetails
  out : List String

/-- The line written by `fmt.Println(" WARNING POTENTIAL IGNORED ERR", pos)`. -/
def warningLine (pos : Nat) : String :=
  " WARNING POTENTIAL IGNORED ERR " ++ toString pos ++ "\n"

/-- The loop `for i, expr := range stmt.Lhs` of `extractVariables`, from index `i` on, over
the remaining left-hand sides `lhs`. -/
def assignLoop (L : Lib) (rhs : List Expr) : Nat → List Expr → ExtractState → ExtractState
  | _, [], st => st
  | i, expr :: rest, st =>
      match expr with
      | .ident ident =>
          let varType := if h : i < rhs.length then exprToString L (some rhs[i]) else "unknown"
          let out :=
            if ident.Name = "_" ∧ varType = "uknown" then st.out ++ [warningLine ident.NamePos]
            else st.out
          assignLoop L rhs (i + 1) rest
            { vars := st.vars ++ [{ Name := ident.Name, Typ := varType }], out := out }
      | _ => assignLoop L rhs (i + 1) rest st

/-- The function literal passed to `ast.Inspect` by `extractVariables`. -/
def inspectFn (L : Lib) : Visitor ExtractState := fun n st =>
  match n with
  | .stmt (.assign lhs _ rhs) => pure (assignLoop L rhs 0 lhs st, true)
  | _ => pure (st, true)

/-- A body that may be nil, as the `ast.Node` handed to `ast.Inspect`. -/
def Node.ofBody : Option Block → Node
  | none => .nilBlock
  | some b => .block b

/-- Translation of `extractVariables`, with the lines it writes to standard output. -/
def extractVariablesOut (L : Lib) (body : Option Block) : Except Panic ExtractState :=
  Inspect (Node.ofBody body) (inspectFn L) { vars := [], out := [] }

/-- Translation of `extractVariables`: the returned slice. -/
def extractVariables (L : Lib) (body : Option Block) : Except Panic (List VariableDetails) :=
  (extractVariablesOut L body).map (fun st => st.vars)

/-- A Go `map[string]V`: an association list with one entry per key. -/
abbrev GoMap (V : Type) := List (String × V)

/-- Lookup `m[k]` with its presence flag. -/
def GoMap.get {V : Type} : GoMap V → String → Option V
  | [], _ => none
  | (k1, v1) :: m, k => if k1 = k then some v1 else GoMap.get m k

/-- Assignment `m[k] = v`: overwrites the entry of `k` or adds one. -/
def GoMap.set {V : Type} : GoMap V → String → V → GoMap V
  | [], k, v => [(k, v)]
  | (k1, v1) :: m, k, v => if k1 = k then (k, v) :: m else (k1, v1) :: GoMap.set m k v

/-- The keys of a map. -/
def GoMap.keys {V : Type} (m : GoMap V) : List String := m.map Prod.fst

/-- Translation of `(*CodeAnalyzer).Visit`; the state is the map `v.Functions`, the flag
tells whether `v` (true) or nil (false) is returned. -/
def Visit (L : Lib) : Visitor (GoMap FunctionDetails) := fun node Functions =>
  match node with
  | .nil => pure (Functions, false)
  | .decl (.funcDecl doc recv name typ body) => do
      let vars ← extractVariables L body
      let funcDetail : FunctionDetails :=
        { Doc := extractDoc L doc
          Recv := fieldListToString L recv
          Name := name.Name
          Typ := typ
          Variables := vars
          Body := body }
      pure (Functions.set name.Name funcDetail, true)
  | _ => pure (Functions, true)

/-- Translation of `strings.HasSuffix`. -/
def HasSuffix (s suffix : String) : Bool := suffix.data.isSuffixOf s.data

/-- One call of the callback by `filepath.Walk`: the path, the error argument, whether the
entry is a directory, and the result of `os.ReadFile` on the path. -/
structure DirEntry where
  path : String
  err : Option String
  isDir : Bool
  content : Except String String

/-- The key `fmt.Sprintf("%s.%s (%s)", packageName, name, path)`. -/
def fullName (packageName name path : String) : String :=
  packageName ++ "." ++ name ++ " (" ++ path ++ ")"

/-- The loop of `ParseDir` that adds the functions of one file to `FunctionMap`. -/
def addFunctions (packageName path : String) (Functions : GoMap FunctionDetails)
    (FunctionMap : GoMap FunctionDetails) : GoMap FunctionDetails :=
  Functions.foldl (fun t nd => t.set (fullName packageName nd.1 path) nd.2) FunctionMap

/-- The callback of `ParseDir`, on the state it works on, the table `FunctionMap` and the
file set `fset` of the walk: the new state and the error returned.  `parser.ParseFile` adds
the file to `fset` whether or not it parses. -/
def walkFn (L : Lib) (e : DirEntry) (st : GoMap FunctionDetails × FileSet) :
    Except Panic ((GoMap FunctionDetails × FileSet) × Option String) :=
  match e.err with
  | some err => pure (st, some err)
  | none =>
    if e.isDir then pure (st, none)
    else if !HasSuffix e.path ".go" then pure (st, none)
    else
      match e.content with
      | .error _ => pure (st, none)
      | .ok src =>
        match L.parseFile st.2 e.path src with
        | .error _ => pure ((st.1, st.2.AddFile src.utf8ByteSize), none)
        | .ok file => do
            let Functions ← Walk (Visit L) (.file file) []
            pure ((addFunctions file.Name.Name e.path Functions st.1,
              st.2.AddFile src.utf8ByteSize), none)

/-- The enumeration `filepath.Walk`: the callback is run on the entries in order and the
first error it returns ends the walk and is returned. -/
def filepathWalk {σ : Type} (fn : DirEntry → σ → Except Panic (σ × Option String)) :
    List DirEntry → σ → Except Panic (σ × Option String)
  | [], s => pure (s, none)
  | e :: rest, s => do
      let (s, err) ← fn e s
      match err with
      | some err => pure (s, some err)
      | none => filepathWalk fn rest s

/-- The walk of `ParseDir` from a file set: the `FunctionMap` after the walk and the error
returned. -/
def ParseDirFrom (L : Lib) (fset : FileSet) (entries : List DirEntry)
    (FunctionMap : GoMap FunctionDetails) :
    Except Panic (GoMap FunctionDetails × Option String) :=
  (filepathWalk (walkFn L) entries (FunctionMap, fset)).map (fun r => (r.1.1, r.2))

/-- Translation of `ParseDir`: a new file set is made, the tree is walked; the result is
the `FunctionMap` after the walk and the error returned. -/
def ParseDir (L : Lib) (entries : List DirEntry) (FunctionMap : GoMap FunctionDetails) :
    Except Panic (GoMap FunctionDetails × Option String) :=
  ParseDirFrom L NewFileSet entries FunctionMap

/-! ## Nodes in depth-first pre-order -/

/-- The nodes of a list of identifiers. -/
def identNodes (ids : List Ident) : List Node := ids.map (fun id => Node.expr (.ident id))

mutual
/-- The nodes of an expression in depth-first pre-order: the expression, then the nodes of
its children from left to right. -/
def exprNodes : Expr → List Node
  | .ident id => [.expr (.ident id)]
  | .basicLit p k v => [.expr (.basicLit p k v)]
  | .funcLit t b => .expr (.funcLit t b) :: (funcTypeNodes t ++ blockNodes b)
  | .paren x => .expr (.paren x) :: exprNodes x
  | .selector x sel => .expr (.selector x sel) :: (exprNodes x ++ [.expr (.ident sel)])
  | .index x i => .expr (.index x i) :: (exprNodes x ++ exprNodes i)
  | .call f args => .expr (.call f args) :: (exprNodes f ++ exprsNodes args)
  | .star x => .expr (.star x) :: exprNodes x
  | .unary op x => .expr (.unary op x) :: exprNodes x
  | .binary x op y => .expr (.binary x op y) :: (exprNodes x ++ exprNodes y)
/-- The nodes of a list of expressions. -/
def exprsNodes : List Expr → List Node
  | [] => []
  | e :: rest => exprNodes e ++ exprsNodes rest
/-- The nodes of an expression that may be nil. -/
def optExprNodes : Option Expr → List Node
  | none => []
  | some e => exprNodes e
/-- The nodes of a field. -/
def fieldNodes : Field → List Node
  | .mk names t => .field (.mk names t) :: (identNodes names ++ exprNodes t)
/-- The nodes of a list of fields. -/
def fieldsNodes : List Field → List Node
  | [] => []
  | f :: rest => fieldNodes f ++ fieldsNodes rest
/-- The nodes of a field list. -/
def fieldListNodes : FieldList → List Node
  | .mk fs => .fieldList (.mk fs) :: fieldsNodes fs
/-- The nodes of a field list that may be nil. -/
def optFieldListNodes : Option FieldList → List Node
  | none => []
  | some l => fieldListNodes l
/-- The nodes of a function signature. -/
def funcTypeNodes : FuncType → List Node
  | .mk params results =>
      .funcType (.mk params results) :: (fieldListNodes params ++ optFieldListNodes results)
/-- The nodes of a value specification. -/
def valueSpecNodes : ValueSpec → List Node
  | .mk names t values =>
      .valueSpec (.mk names t values) ::
        (identNodes names ++ (optExprNodes t ++ exprsNodes values))
/-- The nodes of a list of value specifications. -/
def valueSpecsNodes : List ValueSpec → List Node
  | [] => []
  | sp :: rest => valueSpecNodes sp ++ valueSpecsNodes rest
/-- The nodes of a general declaration. -/
def genDeclNodes : GenDecl → List Node
  | .mk tok specs => .genDecl (.mk tok specs) :: valueSpecsNodes specs
/-- The nodes of a statement in depth-first pre-order. -/
def stmtNodes : Stmt → List Node
  | .block b => blockNodes b
  | .assign lhs tok rhs => .stmt (.assign lhs tok rhs) :: (exprsNodes lhs ++ exprsNodes rhs)
  | .declStmt d => .stmt (.declStmt d) :: genDeclNodes d
  | .exprStmt x => .stmt (.exprStmt x) :: exprNodes x
  | .incDec x tok => .stmt (.incDec x tok) :: exprNodes x
  | .ret results => .stmt (.ret results) :: exprsNodes results
  | .ifStmt init cond body els =>
      .stmt (.ifStmt init cond body els) ::
        (optStmtNodes init ++ (exprNodes cond ++ (blockNodes body ++ optStmtNodes els)))
  | .forStmt init cond post body =>
      .stmt (.forStmt init cond post body) ::
        (optStmtNodes init ++ (optExprNodes cond ++ (optStmtNodes post ++ blockNodes body)))
  | .rangeStmt key value x body =>
      .stmt (.rangeStmt key value x body) ::
        (optExprNodes key ++ (optExprNodes value ++ (exprNodes x ++ blockNodes body)))
/-- The nodes of a statement that may be nil. -/
def optStmtNodes : Option Stmt → List Node
  | none => []
  | some st => stmtNodes st
/-- The nodes of a list of statements. -/
def stmtsNodes : List Stmt → List Node
  | [] => []
  | st :: rest => stmtNodes st ++ stmtsNodes rest
/-- The nodes of a block in depth-first pre-order: the block, then the nodes of its
statements in order. -/
def blockNodes : Block → List Node
  | .mk list => .block (.mk list) :: stmtsNodes list
end

/-! ## The variable extractor as the specification words it -/

/-- The record of the left-hand side `ie.2` at index `ie.1` as the specification words it:
a plain identifier gives one record, named by the identifier's text and described by the
rendered right-hand side at the same index, or by `"unknown"` when there is none; any
other kind of left-hand side gives no record. -/
def specRecord (L : Lib) (rhs : List Expr) (ie : Nat × Expr) : Option VariableDetails :=
  match ie.2 with
  | .ident id =>
      some { Name := id.Name
             Typ := match rhs[ie.1]? with
               | some r => L.printExpr r
               | none => "unknown" }
  | _ => none

/-- The records of one assignment statement as the specification words them: the records
of its left-hand sides, in order. -/
def specAssignRecords (L : Lib) (lhs rhs : List Expr) : List VariableDetails :=
  lhs.enum.filterMap (specRecord L rhs)

/-- The records the specification assigns to a node: those of an assignment statement,
none for any other node. -/
def specNodeRecords (L : Lib) : Node → List VariableDetails
  | .stmt (.assign lhs _ rhs) => specAssignRecords L lhs rhs
  | _ => []

/-- The diagnostic line of the left-hand side `ie.2` at index `ie.1`: one line when it is the
identifier `_` and the right-hand side at its index exists and is rendered as `uknown`. -/
def specWarning (L : Lib) (rhs : List Expr) (ie : Nat × Expr) : Option String :=
  match ie.2 with
  | .ident id =>
      match rhs[ie.1]? with
      | some r =>
          if id.Name = "_" ∧ L.printExpr r = "uknown" then some (warningLine id.NamePos)
          else none
      | none => none
  | _ => none

/-- The diagnostic lines of one assignment statement. -/
def assignWarnings (L : Lib) (lhs rhs : List Expr) : List String :=
  lhs.enum.filterMap (specWarning L rhs)

/-- The diagnostic lines of a node. -/
def nodeWarnings (L : Lib) : Node → List String
  | .stmt (.assign lhs _ rhs) => assignWarnings L lhs rhs
  | _ => []

/-- The effect of the closure of `extractVariables` on its state at a node. -/
def inspectStep (L : Lib) (n : Node) (st : ExtractState) : ExtractState :=
  match n with
  | .stmt (.assign lhs _ rhs) => assignLoop L rhs 0 lhs st
  | _ => st

/-- Nodes other than the nil interface and a top-level declaration. -/
def Node.plain : Node → Bool
  | .nil => false
  | .decl _ => false
  | _ => true

/-! ## Sample inputs -/

/-- A library instance for concrete evaluation: identifiers and basic literals are printed
as their text, as `go/printer` does; nothing else is printed by it. -/
def textLib : Lib where
  printExpr := fun e =>
    match e with
    | .ident id => id.Name
    | .basicLit _ _ value => value
    | _ => ""
  printStmt := fun _ => ""
  printDecl := fun _ => ""
  commentText := fun g => String.join g.list
  sprintOther := fun _ => ""
  sprintVOther := fun _ => ""
  parseFile := fun _ _ _ => .error "no parser"

/-- The body `{ x := 1; if x > 0 { y := 2 } }`. -/
def bodyXY : Block :=
  .mk [.assign [.ident ⟨32, "x"⟩] ":=" [.basicLit 37 .INT "1"],
       .ifStmt none (.binary (.ident ⟨43, "x"⟩) ">" (.basicLit 47 .INT "0"))
         (.mk [.assign [.ident ⟨51, "y"⟩] ":=" [.basicLit 56 .INT "2"]]) none]

/-- The body `{ a, b := f() }`. -/
def bodyAB : Block :=
  .mk [.assign [.ident ⟨20, "a"⟩, .ident ⟨23, "b"⟩] ":=" [.call (.ident ⟨28, "f"⟩) []]]

/-- The body `{ _ = uknown }`. -/
def bodyDiscard : Block :=
  .mk [.assign [.ident ⟨20, "_"⟩] "=" [.ident ⟨24, "uknown"⟩]]

/-- Whether an expression is a plain identifier (`expr.(*ast.Ident)` succeeds). -/
def Expr.isIdent : Expr → Bool
  | .ident _ => true
  | _ => false

/-- The nodes of `bodyXY` visited before the statement `y := 2`. -/
def nodesBeforeY : List Node :=
  [.block bodyXY,
   .stmt (.assign [.ident ⟨32, "x"⟩] ":=" [.basicLit 37 .INT "1"]),
   .expr (.ident ⟨32, "x"⟩),
   .expr (.basicLit 37 .INT "1"),
   .stmt (.ifStmt none (.binary (.ident ⟨43, "x"⟩) ">" (.basicLit 47 .INT "0"))
     (.mk [.assign [.ident ⟨51, "y"⟩] ":=" [.basicLit 56 .INT "2"]]) none),
   .expr (.binary (.ident ⟨43, "x"⟩) ">" (.basicLit 47 .INT "0")),
   .expr (.ident ⟨43, "x"⟩),
   .expr (.basicLit 47 .INT "0"),
   .block (.mk [.assign [.ident ⟨51, "y"⟩] ":=" [.basicLit 56 .INT "2"]])]

/-- The nodes of `bodyXY` visited after the statement `y := 2`. -/
def nodesAfterY : List Node :=
  [.expr (.ident ⟨51, "y"⟩), .expr (.basicLit 56 .INT "2")]

/-- The receiver list `(t *T)`. -/
def recvT : FieldList :=
  .mk [.mk [⟨6, "t"⟩] (.star (.ident ⟨9, "T"⟩))]

/-- The signature `()`. -/
def noParams : FuncType := .mk (.mk []) none

/-- The record `Visit` builds for a function declaration with the body `b`, as the
specification words it: documentation text, receiver rendering, name, signature, the
records of the body's assignment statements in traversal order, and the body. -/
def funcRecord (L : Lib) (doc : Option CommentGroup) (recv : Option FieldList) (name : Ident)
    (typ : FuncType) (b : Block) : FunctionDetails :=
  { Doc := extractDoc L doc
    Recv := fieldListToString L recv
    Name := name.Name
    Typ := typ
    Variables := (blockNodes b).flatMap (specNodeRecords L)
    Body := some b }

/-- The effect of `Visit` and of the traversal below it on the map at one top-level
declaration, as the specification words it: a function declaration stores its record
under its name, any other declaration changes nothing; without a body the extraction
does not complete. -/
def declStep (L : Lib) (d : Decl) (m : GoMap FunctionDetails) :
    Except Panic (GoMap FunctionDetails) :=
  match d with
  | .genDecl _ => .ok m
  | .funcDecl _ _ _ _ none => .error .nilDereference
  | .funcDecl doc recv name typ (some b) =>
      .ok (m.set name.Name (funcRecord L doc recv name typ b))

/-- The names of the function and method declarations of a file, in order. -/
def declNames : List Decl → List String
  | [] => []
  | .funcDecl _ _ name _ _ :: rest => name.Name :: declNames rest
  | .genDecl _ :: rest => declNames rest

/-- The record of a declaration if it is a function declaration named `k` with a body. -/
def recordNamed (L : Lib) (k : String) : Decl → Option FunctionDetails
  | .funcDecl doc recv name typ (some b) =>
      if name.Name = k then some (funcRecord L doc recv name typ b) else none
  | _ => none

/-- The record built from the last declaration named `k`, if there is one. -/
def lastDeclRecord (L : Lib) (k : String) (decls : List Decl) : Option FunctionDetails :=
  decls.reverse.findSome? (recordNamed L k)

/-- Whether a declaration is no function declaration without a body. -/
def Decl.hasBody : Decl → Bool
  | .funcDecl _ _ _ _ none => false
  | _ => true

/-- The file `package p; func (t *T) Foo() { x := 1; if x > 0 { y := 2 } }`. -/
def fileFoo : File :=
  { Name := ⟨9, "p"⟩
    Decls := [.funcDecl none (some recvT) ⟨12, "Foo"⟩ noParams (some bodyXY)] }

/-- The file `package p; func F() { a, b := f() }; func F() { _ = uknown }`, two
declarations of one name. -/
def fileTwice : File :=
  { Name := ⟨9, "p"⟩
    Decls := [.funcDecl none none ⟨12, "F"⟩ noParams (some bodyAB),
              .funcDecl none none ⟨40, "F"⟩ noParams (some bodyDiscard)] }

/-- The text of `fileFoo`. -/
def srcFoo : String := "package p\nfunc (t *T) Foo() \x7b x := 1; if x > 0 \x7b y := 2 \x7d \x7d\n"

/-- A library instance whose parser accepts the text `srcFoo`, with the tree `fileFoo`, and
rejects every other text. -/
def fooLib : Lib :=
  { textLib with
    parseFile := fun _ _ src => if src = srcFoo then .ok fileFoo else .error "syntax error" }

/-- The entry of the file `a/foo.go` with the text `srcFoo`. -/
def entryFoo : DirEntry :=
  { path := "a/foo.go", err := none, isDir := false, content := .ok srcFoo }

/-- The entry of a file `a/bad.go` whose text does not parse. -/
def entryBad : DirEntry :=
  { path := "a/bad.go", err := none, isDir := false, content := .ok "package" }

/-- The per-file map of `fileFoo`. -/
def fnsFoo : GoMap FunctionDetails :=
  [("Foo", funcRecord fooLib none (some recvT) ⟨12, "Foo"⟩ noParams bodyXY)]

/-- The file set after the callback has run on an entry: a regular file with the suffix
`.go` that is read is added to the file set, with the size of its content; any other
entry leaves the file set as it is. -/
def DirEntry.advance (e : DirEntry) (fset : FileSet) : FileSet :=
  match e.err with
  | some _ => fset
  | none =>
    if e.isDir then fset
    else if !HasSuffix e.path ".go" then fset
    else
      match e.content with
      | .error _ => fset
      | .ok src => fset.AddFile src.utf8ByteSize

/-- Whether an entry is a file whose read fails: a regular file with the suffix `.go` for
which `os.ReadFile` returns an error. -/
def DirEntry.readFails (e : DirEntry) : Bool :=
  e.err.isNone && !e.isDir && HasSuffix e.path ".go" &&
    (match e.content with
     | .error _ => true
     | .ok _ => false)

/-- Whether an entry met at the file set `fset` is a file whose read or parse fails: a
regular file with the suffix `.go` for which `os.ReadFile` or `parser.ParseFile` returns an
error. -/
def DirEntry.fails (L : Lib) (fset : FileSet) (e : DirEntry) : Bool :=
  e.err.isNone && !e.isDir && HasSuffix e.path ".go" &&
    (match e.content with
     | .error _ => true
     | .ok src =>
         match L.parseFile fset e.path src with
         | .error _ => true
         | .ok _ => false)

/-- The tree of a well-formed file met at the file set `fset`: the entry is a regular file
with the suffix `.go` that is read and parsed. -/
def DirEntry.parsed (L : Lib) (fset : FileSet) (e : DirEntry) : Option File :=
  match e.err with
  | some _ => none
  | none =>
    if e.isDir then none
    else if !HasSuffix e.path ".go" then none
    else
      match e.content with
      | .error _ => none
      | .ok src =>
          match L.parseFile fset e.path src with
          | .error _ => none
          | .ok file => some file

/-! ## The writes of a walk -/

/-- Whether a node is the nil interface (`node == nil`). -/
def Node.isNil : Node → Bool
  | .nil => true
  | _ => false

/-- The entries of a walk from the file set `fset` up to the first enumeration error (the
callback returns that error and the walk ends there), each with the file set at which the
callback meets it. -/
def processedFrom : FileSet → List DirEntry → List (FileSet × DirEntry)
  | _, [] => []
  | fset, e :: rest =>
      match e.err with
      | some _ => []
      | none => (fset, e) :: processedFrom (e.advance fset) rest

/-- The entries that `ParseDir` processes, each with the file set at which it is met. -/
def processed (es : List DirEntry) : List (FileSet × DirEntry) :=
  processedFrom NewFileSet es

/-- The enumeration error that ends a walk, if there is one: the first error handed to the
callback. -/
def firstEnumError (es : List DirEntry) : Option String :=
  es.findSome? (fun e => e.err)

/-- The assignments `FunctionMap[key] = details`, in order, applied to a table. -/
def applyWrites (w : List (String × FunctionDetails)) (T : GoMap FunctionDetails) :
    GoMap FunctionDetails :=
  w.foldl (fun t kv => t.set kv.1 kv.2) T

/-- The value last written to the key `k` in a list of assignments, if any. -/
def lastWrite : List (String × FunctionDetails) → String → Option FunctionDetails
  | [], _ => none
  | (k1, v1) :: w, k =>
      match lastWrite w k with
      | some v => some v
      | none => if k1 = k then some v1 else none

/-- The assignments to `FunctionMap` that the callback makes for one entry met at the file
set `fset`: for a file that is read and parsed, one per function of its per-file map, under
the composite key; none for any other entry. -/
def entryWrites (L : Lib) (fset : FileSet) (e : DirEntry) :
    Except Panic (List (String × FunctionDetails)) :=
  match e.parsed L fset with
  | none => .ok []
  | some file =>
      (Walk (Visit L) (.file file) []).map
        (fun fns => fns.map (fun nd => (fullName file.Name.Name nd.1 e.path, nd.2)))

/-- The assignments to `FunctionMap` made by a walk from the file set `fset`, in order, and
the error it returns. -/
def walkWrites (L : Lib) :
    FileSet → List DirEntry → Except Panic (List (String × FunctionDetails) × Option String)
  | _, [] => .ok ([], none)
  | fset, e :: rest =>
      match e.err with
      | some err => .ok ([], some err)
      | none =>
          match entryWrites L fset e with
          | .error p => .error p
          | .ok w =>
              match walkWrites L (e.advance fset) rest with
              | .error p => .error p
              | .ok (w1, err) => .ok (w ++ w1, err)

/-- The key of every entry of a table is the composite key of the entry's own name, for
some package name and path. -/
def KeyNamed (T : GoMap FunctionDetails) : Prop :=
  ∀ k r, T.get k = some r → ∃ p f : String, k = p ++ "." ++ r.Name ++ " (" ++ f ++ ")"

/-- The entry of the directory `a`. -/
def entryDir : DirEntry :=
  { path := "a", err := none, isDir := true, content := .error "is a directory" }

/-- The entry of a file `a/README.md`. -/
def entryReadme : DirEntry :=
  { path := "a/README.md", err := none, isDir := false, content := .ok "notes" }

/-- The entry of a directory `a/private` that cannot be read. -/
def entryDenied : DirEntry :=
  { path := "a/private", err := some "permission denied", isDir := true,
    content := .error "is a directory" }

/-- Translation of `var FunctionMap = make(map[string]FunctionDetails)`: the table at
process start. -/
def initialFunctionMap : GoMap FunctionDetails := []

/-- The names of a field. -/
def Field.names : Field → List Ident
  | .mk names _ => names

/-- The type of a field. -/
def Field.typ : Field → Expr
  | .mk _ typ => typ

/-- Whether a field carries at least one name. -/
def Field.hasName (f : Field) : Bool := !f.names.isEmpty

/-- The text a parameter field contributes as the specification words it: the first name
of the field, a space, the text of the field's type, and `", "`. -/
def paramText (L : Lib) (f : Field) : String :=
  ((f.names.head?).map (fun id => id.Name)).getD "" ++ " " ++ sprintV L f.typ ++ ", "

/-- The text a result field contributes: the text of its type and `", "`. -/
def resultText (L : Lib) (f : Field) : String :=
  sprintV L f.typ ++ ", "

/-- The section for the results: `" | Returns: "` and the result texts when the signature
has a result list, nothing otherwise. -/
def returnsText (L : Lib) : Option FieldList → String
  | none => ""
  | some (.mk list) => " | Returns: " ++ String.join (list.map (resultText L))

/-- The signature `(a, b int, s string) error`. -/
def sigNamed : FuncType :=
  .mk (.mk [.mk [⟨10, "a"⟩, ⟨13, "b"⟩] (.ident ⟨15, "int"⟩),
            .mk [⟨20, "s"⟩] (.ident ⟨22, "string"⟩)])
    (some (.mk [.mk [] (.ident ⟨30, "error"⟩)]))

/-- The signature `(int)`, a parameter without a name. -/
def sigUnnamed : FuncType :=
  .mk (.mk [.mk [] (.ident ⟨10, "int"⟩)]) none

/-- An assignment `FunctionMap[kv.1] = kv.2` stems from a file of a walk from the file set
`fset`: a processed entry that is read and parsed, with a function `n` of its per-file map
whose record is `kv.2`, under the composite key of `n`. -/
def WriteOf (L : Lib) (fset : FileSet) (es : List DirEntry) (kv : String × FunctionDetails) :
    Prop :=
  ∃ p ∈ processedFrom fset es, ∃ file fns n, p.2.parsed L p.1 = some file
    ∧ Walk (Visit L) (.file file) [] = .ok fns
    ∧ fns.get n = some kv.2
    ∧ kv.1 = file.Name.Name ++ "." ++ n ++ " (" ++ p.2.path ++ ")"

/-- The table after a walk over `a/bad.go` and `a/foo.go` from the empty table. -/
def tableFoo : GoMap FunctionDetails :=
  [("p.Foo (a/foo.go)", funcRecord fooLib none (some recvT) ⟨12, "Foo"⟩ noParams bodyXY)]

/-- The body `{ x, _ = f() }`. -/
def bodyIgnored : Block :=
  .mk [.assign [.ident ⟨20, "x"⟩, .ident ⟨23, "_"⟩] "=" [.call (.ident ⟨28, "f"⟩) []]]

/-- The receiver list `(t *T)` of the text `srcFoo` parsed at the base `base`. -/
def recvAt (base : Nat) : FieldList :=
  .mk [.mk [⟨base + 16, "t"⟩] (.star (.ident ⟨base + 19, "T"⟩))]

/-- The body of `Foo` in the text `srcFoo` parsed at the base `base`. -/
def bodyAt (base : Nat) : Block :=
  .mk [.assign [.ident ⟨base + 30, "x"⟩] ":=" [.basicLit (base + 35) .INT "1"],
       .ifStmt none (.binary (.ident ⟨base + 41, "x"⟩) ">" (.basicLit (base + 45) .INT "0"))
         (.mk [.assign [.ident ⟨base + 49, "y"⟩] ":=" [.basicLit (base + 54) .INT "2"]]) none]

/-- The tree of the text `srcFoo` parsed at the base `base`: every position is the base plus
the offset in the text. -/
def fileFooAt (base : Nat) : File :=
  { Name := ⟨base + 8, "p"⟩
    Decls := [.funcDecl none (some (recvAt base)) ⟨base + 22, "Foo"⟩ noParams
      (some (bodyAt base))] }

/-- A library instance whose parser accepts the text `srcFoo` and gives its tree the
positions of the file set it is handed, as `parser.ParseFile` does. -/
def posLib : Lib :=
  { textLib with
    parseFile := fun fset _ src =>
      if src = srcFoo then .ok (fileFooAt fset.base) else .error "syntax error" }


/-- The table after a walk that parses `a/foo.go` at the base `base`. -/
def tableFooAt (base : Nat) : GoMap FunctionDetails :=
  [("p.Foo (a/foo.go)",
    funcRecord posLib none (some (recvAt base)) ⟨base + 22, "Foo"⟩ noParams (bodyAt base))]

/-- The assignments to `FunctionMap` for a list of entries, each met at its file set, in
order. -/
def writesOfPairs (L : Lib) :
    List (FileSet × DirEntry) → Except Panic (List (String × FunctionDetails))
  | [] => .ok []
  | p :: rest =>
      match entryWrites L p.1 p.2 with
      | .error x => .error x
      | .ok w =>
          match writesOfPairs L rest with
          | .error x => .error x
          | .ok w1 => .ok (w ++ w1)

/-! ## The traversal visits the nodes in depth-first pre-order -/

section WalkFold

variable {σ : Type} (v : Visitor σ) (g : Node → σ → σ) (bnil : Bool)

theorem walkLeaf_eq (hv : ∀ n s, n.plain = true → v n s = .ok (g n s, true))
    (hn : ∀ s, v .nil s = .ok (s, bnil)) (n : Node) (hp : n.plain = true) (s : σ) :
    walkLeaf v n s = .ok (g n s) := by
  simp [walkLeaf, hv n s hp, hn, bind, Except.bind, pure, Except.pure]

theorem walkIdents_eq (hv : ∀ n s, n.plain = true → v n s = .ok (g n s, true))
    (hn : ∀ s, v .nil s = .ok (s, bnil)) (ids : List Ident) (s : σ) :
    walkIdents v ids s = .ok ((identNodes ids).foldl (fun s n => g n s) s) := by
  induction ids generalizing s with
  | nil => rfl
  | cons id rest ih =>
      have h := ih (g (.expr (.ident id)) s)
      simp only [walkIdents, identNodes] at h
      simp only [walkIdents, identNodes, List.map_cons, List.foldlM_cons, List.foldl_cons]
      rw [walkLeaf_eq v g bnil hv hn (.expr (.ident id)) rfl]
      exact h

set_option maxHeartbeats 4000000 in
mutual
theorem walkExpr_eq (hv : ∀ n s, n.plain = true → v n s = .ok (g n s, true))
    (hn : ∀ s, v .nil s = .ok (s, bnil)) :
    ∀ (e : Expr) (s : σ),
      walkExpr v e s = .ok ((exprNodes e).foldl (fun s n => g n s) s)
  | .ident id, s => by
      rw [walkExpr]
      have h0 : v (.expr (.ident id)) s = .ok (g (.expr (.ident id)) s, true) := hv _ s rfl
      simp only [h0, hn, bind, Except.bind, pure, Except.pure, if_true]
      simp [exprNodes]
  | .basicLit p k val, s => by
      rw [walkExpr]
      have h0 : v (.expr (.basicLit p k val)) s = .ok (g (.expr (.basicLit p k val)) s, true) := hv _ s rfl
      simp only [h0, hn, bind, Except.bind, pure, Except.pure, if_true]
      simp [exprNodes]
  | .funcLit t b, s => by
      rw [walkExpr]
      have h0 : v (.expr (.funcLit t b)) s = .ok (g (.expr (.funcLit t b)) s, true) := hv _ s rfl
      simp only [h0, hn, bind, Except.bind, pure, Except.pure, if_true, walkFuncType_eq hv hn t, walkBlock_eq hv hn b]
      simp [exprNodes]
  | .paren x, s => by
      rw [walkExpr]
      have h0 : v (.expr (.paren x)) s = .ok (g (.expr (.paren x)) s, true) := hv _ s rfl
      simp only [h0, hn, bind, Except.bind, pure, Except.pure, if_true, walkExpr_eq hv hn x]
      simp [exprNodes]
  | .selector x sel, s => by
      rw [walkExpr]
      have h0 : v (.expr (.selector x sel)) s = .ok (g (.expr (.selector x sel)) s, true) := hv _ s rfl
      simp only [h0, hn, bind, Except.bind, pure, Except.pure, if_true, walkExpr_eq hv hn x, walkLeaf_eq v g bnil hv hn (.expr (.ident sel)) rfl]
      simp [exprNodes]
  | .index x i, s => by
      rw [walkExpr]
      have h0 : v (.expr (.index x i)) s = .ok (g (.expr (.index x i)) s, true) := hv _ s rfl
      simp only [h0, hn, bind, Except.bind, pure, Except.pure, if_true, walkExpr_eq hv hn x, walkExpr_eq hv hn i]
      simp [exprNodes]
  | .call f args, s => by
      rw [walkExpr]
      have h0 : v (.expr (.call f args)) s = .ok (g (.expr (.call f args)) s, true) := hv _ s rfl
      simp only [h0, hn, bind, Except.bind, pure, Except.pure, if_true, walkExpr_eq hv hn f, walkExprs_eq hv hn args]
      simp [exprNodes]
  | .star x, s => by
      rw [walkExpr]
      have h0 : v (.expr (.star x)) s = .ok (g (.expr (.star x)) s, true) := hv _ s rfl
      simp only [h0, hn, bind, Except.bind, pure, Except.pure, if_true, walkExpr_eq hv hn x]
      simp [exprNodes]
  | .unary op x, s => by
      rw [walkExpr]
      have h0 : v (.expr (.unary op x)) s = .ok (g (.expr (.unary op x)) s, true) := hv _ s rfl
      simp only [h0, hn, bind, Except.bind, pure, Except.pure, if_true, walkExpr_eq hv hn x]
      simp [exprNodes]
  | .binary x op y, s => by
      rw [walkExpr]
      have h0 : v (.expr (.binary x op y)) s = .ok (g (.expr (.binary x op y)) s, true) := hv _ s rfl
      simp only [h0, hn, bind, Except.bind, pure, Except.pure, if_true, walkExpr_eq hv hn x, walkExpr_eq hv hn y]
      simp [exprNodes]
theorem walkExprs_eq (hv : ∀ n s, n.plain = true → v n s = .ok (g n s, true))
    (hn : ∀ s, v .nil s = .ok (s, bnil)) :
    ∀ (es : List Expr) (s : σ),
      walkExprs v es s = .ok ((exprsNodes es).foldl (fun s n => g n s) s)
  | [], s => by
      rw [walkExprs]
      simp only [bind, Except.bind, pure, Except.pure, if_true]
      simp [exprsNodes]
  | x :: rest, s => by
      rw [walkExprs]
      simp only [bind, Except.bind, pure, Except.pure, if_true, walkExpr_eq hv hn x, walkExprs_eq hv hn rest]
      simp [exprsNodes]
theorem walkOptExpr_eq (hv : ∀ n s, n.plain = true → v n s = .ok (g n s, true))
    (hn : ∀ s, v .nil s = .ok (s, bnil)) :
    ∀ (e : Option Expr) (s : σ),
      walkOptExpr v e s = .ok ((optExprNodes e).foldl (fun s n => g n s) s)
  | none, s => by
      rw [walkOptExpr]
      simp only [bind, Except.bind, pure, Except.pure, if_true]
      simp [optExprNodes]
  | some x, s => by
      rw [walkOptExpr]
      simp only [bind, Except.bind, pure, Except.pure, if_true, walkExpr_eq hv hn x]
      simp [optExprNodes]
theorem walkField_eq (hv : ∀ n s, n.plain = true → v n s = .ok (g n s, true))
    (hn : ∀ s, v .nil s = .ok (s, bnil)) :
    ∀ (f : Field) (s : σ),
      walkField v f s = .ok ((fieldNodes f).foldl (fun s n => g n s) s)
  | .mk names t, s => by
      rw [walkField]
      have h0 : v (.field (.mk names t)) s = .ok (g (.field (.mk names t)) s, true) := hv _ s rfl
      simp only [h0, hn, bind, Except.bind, pure, Except.pure, if_true, walkIdents_eq v g bnil hv hn, walkExpr_eq hv hn t]
      simp [fieldNodes]
theorem walkFields_eq (hv : ∀ n s, n.plain = true → v n s = .ok (g n s, true))
    (hn : ∀ s, v .nil s = .ok (s, bnil)) :
    ∀ (fs : List Field) (s : σ),
      walkFields v fs s = .ok ((fieldsNodes fs).foldl (fun s n => g n s) s)
  | [], s => by
      rw [walkFields]
      simp only [bind, Except.bind, pure, Except.pure, if_true]
      simp [fieldsNodes]
  | x :: rest, s => by
      rw [walkFields]
      simp only [bind, Except.bind, pure, Except.pure, if_true, walkField_eq hv hn x, walkFields_eq hv hn rest]
      simp [fieldsNodes]
theorem walkFieldList_eq (hv : ∀ n s, n.plain = true → v n s = .ok (g n s, true))
    (hn : ∀ s, v .nil s = .ok (s, bnil)) :
    ∀ (l : FieldList) (s : σ),
      walkFieldList v l s = .ok ((fieldListNodes l).foldl (fun s n => g n s) s)
  | .mk fs, s => by
      rw [walkFieldList]
      have h0 : v (.fieldList (.mk fs)) s = .ok (g (.fieldList (.mk fs)) s, true) := hv _ s rfl
      simp only [h0, hn, bind, Except.bind, pure, Except.pure, if_true, walkFields_eq hv hn fs]
      simp [fieldListNodes]
theorem walkOptFieldList_eq (hv : ∀ n s, n.plain = true → v n s = .ok (g n s, true))
    (hn : ∀ s, v .nil s = .ok (s, bnil)) :
    ∀ (l : Option FieldList) (s : σ),
      walkOptFieldList v l s = .ok ((optFieldListNodes l).foldl (fun s n => g n s) s)
  | none, s => by
      rw [walkOptFieldList]
      simp only [bind, Except.bind, pure, Except.pure, if_true]
      simp [optFieldListNodes]
  | some x, s => by
      rw [walkOptFieldList]
      simp only [bind, Except.bind, pure, Except.pure, if_true, walkFieldList_eq hv hn x]
      simp [optFieldListNodes]
theorem walkFuncType_eq (hv : ∀ n s, n.plain = true → v n s = .ok (g n s, true))
    (hn : ∀ s, v .nil s = .ok (s, bnil)) :
    ∀ (t : FuncType) (s : σ),
      walkFuncType v t s = .ok ((funcTypeNodes t).foldl (fun s n => g n s) s)
  | .mk params results, s => by
      rw [walkFuncType]
      have h0 : v (.funcType (.mk params results)) s = .ok (g (.funcType (.mk params results)) s, true) := hv _ s rfl
      simp only [h0, hn, bind, Except.bind, pure, Except.pure, if_true, walkFieldList_eq hv hn params, walkOptFieldList_eq hv hn results]
      simp [funcTypeNodes]
theorem walkValueSpec_eq (hv : ∀ n s, n.plain = true → v n s = .ok (g n s, true))
    (hn : ∀ s, v .nil s = .ok (s, bnil)) :
    ∀ (sp : ValueSpec) (s : σ),
      walkValueSpec v sp s = .ok ((valueSpecNodes sp).foldl (fun s n => g n s) s)
  | .mk names t values, s => by
      rw [walkValueSpec]
      have h0 : v (.valueSpec (.mk names t values)) s = .ok (g (.valueSpec (.mk names t values)) s, true) := hv _ s rfl
      simp only [h0, hn, bind, Except.bind, pure, Except.pure, if_true, walkIdents_eq v g bnil hv hn, walkOptExpr_eq hv hn t, walkExprs_eq hv hn values]
      simp [valueSpecNodes]
theorem walkValueSpecs_eq (hv : ∀ n s, n.plain = true → v n s = .ok (g n s, true))
    (hn : ∀ s, v .nil s = .ok (s, bnil)) :
    ∀ (sps : List ValueSpec) (s : σ),
      walkValueSpecs v sps s = .ok ((valueSpecsNodes sps).foldl (fun s n => g n s) s)
  | [], s => by
      rw [walkValueSpecs]
      simp only [bind, Except.bind, pure, Except.pure, if_true]
      simp [valueSpecsNodes]
  | x :: rest, s => by
      rw [walkValueSpecs]
      simp only [bind, Except.bind, pure, Except.pure, if_true, walkValueSpec_eq hv hn x, walkValueSpecs_eq hv hn rest]
      simp [valueSpecsNodes]
theorem walkGenDecl_eq (hv : ∀ n s, n.plain = true → v n s = .ok (g n s, true))
    (hn : ∀ s, v .nil s = .ok (s, bnil)) :
    ∀ (d : GenDecl) (s : σ),
      walkGenDecl v d s = .ok ((genDeclNodes d).foldl (fun s n => g n s) s)
  | .mk tok specs, s => by
      rw [walkGenDecl]
      have h0 : v (.genDecl (.mk tok specs)) s = .ok (g (.genDecl (.mk tok specs)) s, true) := hv _ s rfl
      simp only [h0, hn, bind, Except.bind, pure, Except.pure, if_true, walkValueSpecs_eq hv hn specs]
      simp [genDeclNodes]
theorem walkStmt_eq (hv : ∀ n s, n.plain = true → v n s = .ok (g n s, true))
    (hn : ∀ s, v .nil s = .ok (s, bnil)) :
    ∀ (st : Stmt) (s : σ),
      walkStmt v st s = .ok ((stmtNodes st).foldl (fun s n => g n s) s)
  | .block b, s => by
      rw [walkStmt]
      simp only [bind, Except.bind, pure, Except.pure, if_true, walkBlock_eq hv hn b]
      simp [stmtNodes]
  | .assign lhs tok rhs, s => by
      rw [walkStmt]
      have h0 : v (.stmt (.assign lhs tok rhs)) s = .ok (g (.stmt (.assign lhs tok rhs)) s, true) := hv _ s rfl
      simp only [h0, hn, bind, Except.bind, pure, Except.pure, if_true, walkExprs_eq hv hn lhs, walkExprs_eq hv hn rhs]
      simp [stmtNodes]
  | .declStmt d, s => by
      rw [walkStmt]
      have h0 : v (.stmt (.declStmt d)) s = .ok (g (.stmt (.declStmt d)) s, true) := hv _ s rfl
      simp only [h0, hn, bind, Except.bind, pure, Except.pure, if_true, walkGenDecl_eq hv hn d]
      simp [stmtNodes]
  | .exprStmt x, s => by
      rw [walkStmt]
      have h0 : v (.stmt (.exprStmt x)) s = .ok (g (.stmt (.exprStmt x)) s, true) := hv _ s rfl
      simp only [h0, hn, bind, Except.bind, pure, Except.pure, if_true, walkExpr_eq hv hn x]
      simp [stmtNodes]
  | .incDec x tok, s => by
      rw [walkStmt]
      have h0 : v (.stmt (.incDec x tok)) s = .ok (g (.stmt (.incDec x tok)) s, true) := hv _ s rfl
      simp only [h0, hn, bind, Except.bind, pure, Except.pure, if_true, walkExpr_eq hv hn x]
      simp [stmtNodes]
  | .ret results, s => by
      rw [walkStmt]
      have h0 : v (.stmt (.ret results)) s = .ok (g (.stmt (.ret results)) s, true) := hv _ s rfl
      simp only [h0, hn, bind, Except.bind, pure, Except.pure, if_true, walkExprs_eq hv hn results]
      simp [stmtNodes]
  | .ifStmt init cond body els, s => by
      rw [walkStmt]
      have h0 : v (.stmt (.ifStmt init cond body els)) s = .ok (g (.stmt (.ifStmt init cond body els)) s, true) := hv _ s rfl
      simp only [h0, hn, bind, Except.bind, pure, Except.pure, if_true, walkOptStmt_eq hv hn init, walkExpr_eq hv hn cond, walkBlock_eq hv hn body, walkOptStmt_eq hv hn els]
      simp [stmtNodes]
  | .forStmt init cond post body, s => by
      rw [walkStmt]
      have h0 : v (.stmt (.forStmt init cond post body)) s = .ok (g (.stmt (.forStmt init cond post body)) s, true) := hv _ s rfl
      simp only [h0, hn, bind, Except.bind, pure, Except.pure, if_true, walkOptStmt_eq hv hn init, walkOptExpr_eq hv hn cond, walkOptStmt_eq hv hn post, walkBlock_eq hv hn body]
      simp [stmtNodes]
  | .rangeStmt key value x body, s => by
      rw [walkStmt]
      have h0 : v (.stmt (.rangeStmt key value x body)) s = .ok (g (.stmt (.rangeStmt key value x body)) s, true) := hv _ s rfl
      simp only [h0, hn, bind, Except.bind, pure, Except.pure, if_true, walkOptExpr_eq hv hn key, walkOptExpr_eq hv hn value, walkExpr_eq hv hn x, walkBlock_eq hv hn body]
      simp [stmtNodes]
theorem walkOptStmt_eq (hv : ∀ n s, n.plain = true → v n s = .ok (g n s, true))
    (hn : ∀ s, v .nil s = .ok (s, bnil)) :
    ∀ (st : Option Stmt) (s : σ),
      walkOptStmt v st s = .ok ((optStmtNodes st).foldl (fun s n => g n s) s)
  | none, s => by
      rw [walkOptStmt]
      simp only [bind, Except.bind, pure, Except.pure, if_true]
      simp [optStmtNodes]
  | some x, s => by
      rw [walkOptStmt]
      simp only [bind, Except.bind, pure, Except.pure, if_true, walkStmt_eq hv hn x]
      simp [optStmtNodes]
theorem walkStmts_eq (hv : ∀ n s, n.plain = true → v n s = .ok (g n s, true))
    (hn : ∀ s, v .nil s = .ok (s, bnil)) :
    ∀ (sts : List Stmt) (s : σ),
      walkStmts v sts s = .ok ((stmtsNodes sts).foldl (fun s n => g n s) s)
  | [], s => by
      rw [walkStmts]
      simp only [bind, Except.bind, pure, Except.pure, if_true]
      simp [stmtsNodes]
  | x :: rest, s => by
      rw [walkStmts]
      simp only [bind, Except.bind, pure, Except.pure, if_true, walkStmt_eq hv hn x, walkStmts_eq hv hn rest]
      simp [stmtsNodes]
theorem walkBlock_eq (hv : ∀ n s, n.plain = true → v n s = .ok (g n s, true))
    (hn : ∀ s, v .nil s = .ok (s, bnil)) :
    ∀ (b : Block) (s : σ),
      walkBlock v b s = .ok ((blockNodes b).foldl (fun s n => g n s) s)
  | .mk list, s => by
      rw [walkBlock]
      have h0 : v (.block (.mk list)) s = .ok (g (.block (.mk list)) s, true) := hv _ s rfl
      simp only [h0, hn, bind, Except.bind, pure, Except.pure, if_true, walkStmts_eq hv hn list]
      simp [blockNodes]
end

end WalkFold

/-! ## The variable extractor -/

theorem exprToString_some (L : Lib) (e : Expr) : exprToString L (some e) = L.printExpr e := by
  simp [exprToString, Fprint]

theorem assignLoop_eq (L : Lib) (rhs : List Expr) :
    ∀ (lhs : List Expr) (i : Nat) (st : ExtractState),
      assignLoop L rhs i lhs st =
        { vars := st.vars ++ (lhs.enumFrom i).filterMap (specRecord L rhs)
          out := st.out ++ (lhs.enumFrom i).filterMap (specWarning L rhs) }
  | [], i, st => by simp [assignLoop]
  | e :: rest, i, st => by
      cases e <;>
        simp [assignLoop, specRecord, specWarning, List.enumFrom_cons, assignLoop_eq L rhs rest]
      rename_i id
      by_cases h : i < rhs.length
      · by_cases hw : id.Name = "_" ∧ L.printExpr rhs[i] = "uknown"
        · simp [h, hw, exprToString_some, List.getElem?_eq_getElem h, specWarning,
            List.filterMap_cons]
        · simp [h, hw, exprToString_some, List.getElem?_eq_getElem h, specWarning,
            List.filterMap_cons]
      · have h2 : rhs[i]? = none := List.getElem?_eq_none (Nat.le_of_not_lt h)
        simp [h, h2, specWarning, List.filterMap_cons]

theorem inspectStep_eq (L : Lib) (n : Node) (st : ExtractState) :
    inspectStep L n st =
      { vars := st.vars ++ specNodeRecords L n, out := st.out ++ nodeWarnings L n } := by
  unfold inspectStep specNodeRecords nodeWarnings
  split <;> simp [assignLoop_eq, specAssignRecords, assignWarnings, List.enum]

theorem foldl_inspectStep (L : Lib) :
    ∀ (ns : List Node) (st : ExtractState),
      ns.foldl (fun st n => inspectStep L n st) st =
        { vars := st.vars ++ ns.flatMap (specNodeRecords L)
          out := st.out ++ ns.flatMap (nodeWarnings L) }
  | [], st => by simp
  | n :: rest, st => by
      rw [List.foldl_cons, foldl_inspectStep L rest, inspectStep_eq]
      simp [List.flatMap_cons, List.append_assoc]

theorem inspectFn_eq (L : Lib) (n : Node) (st : ExtractState) :
    inspectFn L n st = .ok (inspectStep L n st, true) := by
  unfold inspectFn inspectStep
  split <;> rfl

theorem extractVariablesOut_some (L : Lib) (b : Block) :
    extractVariablesOut L (some b) =
      .ok { vars := (blockNodes b).flatMap (specNodeRecords L)
            out := (blockNodes b).flatMap (nodeWarnings L) } := by
  unfold extractVariablesOut Inspect Walk Node.ofBody
  simp only []
  rw [walkBlock_eq (inspectFn L) (inspectStep L) true (fun n s _ => inspectFn_eq L n s)
    (fun s => inspectFn_eq L .nil s) b, foldl_inspectStep]
  simp

theorem extractVariables_some (L : Lib) (b : Block) :
    extractVariables L (some b) = .ok ((blockNodes b).flatMap (specNodeRecords L)) := by
  simp [extractVariables, extractVariablesOut_some, Except.map]

theorem extractVariables_none (L : Lib) : extractVariables L none = .error .nilDereference := by
  rfl

theorem specRecords_length (L : Lib) (rhs : List Expr) :
    ∀ (lhs : List Expr) (i : Nat),
      ((lhs.enumFrom i).filterMap (specRecord L rhs)).length = (lhs.filter Expr.isIdent).length
  | [], i => by simp
  | e :: rest, i => by
      cases e <;>
        simp [List.enumFrom_cons, List.filterMap_cons, specRecord, Expr.isIdent,
          specRecords_length L rhs rest]

/-- C1: in a function body whose nodes in traversal order are `ns1`, the assignment
statement `lhs tok rhs`, `ns2`, `extractVariables` returns the records of the nodes before
it, then the records of this statement, then those of the nodes after it; the records of
the statement are, for its left-hand sides in order, one record per plain identifier (its
name, and the rendered right-hand side at the same index or `"unknown"` when there is
none) and none for any other left-hand side; for `a, b := f()` the record of `b` has the
descriptor `"unknown"`. -/
theorem C1_extractVariables_assignment_records (L : Lib) (body : Block) (ns1 ns2 : List Node)
    (lhs rhs : List Expr) (tok : String)
    (h : blockNodes body = ns1 ++ Node.stmt (.assign lhs tok rhs) :: ns2) :
    extractVariables L (some body) =
        .ok (ns1.flatMap (specNodeRecords L) ++ specAssignRecords L lhs rhs ++
          ns2.flatMap (specNodeRecords L))
      ∧ (∀ st : ExtractState,
          inspectFn L (.stmt (.assign lhs tok rhs)) st =
            .ok ({ vars := st.vars ++ specAssignRecords L lhs rhs
                   out := st.out ++ assignWarnings L lhs rhs }, true))
      ∧ (specAssignRecords L lhs rhs).length = (lhs.filter Expr.isIdent).length
      ∧ extractVariables L (some bodyAB) =
          .ok [{ Name := "a", Typ := L.printExpr (.call (.ident ⟨28, "f"⟩) []) },
               { Name := "b", Typ := "unknown" }] := by
  refine ⟨?_, ?_, ?_, ?_⟩
  · rw [extractVariables_some, h]
    simp [List.flatMap_append, List.flatMap_cons, specNodeRecords, List.append_assoc]
  · intro st
    rw [inspectFn_eq, inspectStep_eq]
    rfl
  · exact specRecords_length L rhs lhs 0
  · rw [extractVariables_some]
    rfl

theorem C1_extractVariables_assignment_records_witness :
    blockNodes bodyXY =
        nodesBeforeY ++
          Node.stmt (.assign [.ident ⟨51, "y"⟩] ":=" [.basicLit 56 .INT "2"]) :: nodesAfterY
      ∧ extractVariables textLib (some bodyXY) =
        .ok (nodesBeforeY.flatMap (specNodeRecords textLib) ++
          specAssignRecords textLib [.ident ⟨51, "y"⟩] [.basicLit 56 .INT "2"] ++
          nodesAfterY.flatMap (specNodeRecords textLib)) :=
  ⟨rfl, (C1_extractVariables_assignment_records textLib bodyXY nodesBeforeY nodesAfterY
    [.ident ⟨51, "y"⟩] [.basicLit 56 .INT "2"] ":=" rfl).1⟩

/-- C2: `extractVariables` returns the records of the assignment statements of the body
at every nesting depth, in the order in which a depth-first pre-order traversal of the
body meets them, nothing sorted and nothing removed; for a printer that renders a basic
literal as its text, the body `{ x := 1; if x > 0 { y := 2 } }` gives exactly the records
`{x, "1"}`, `{y, "2"}` in that order. -/
theorem C2_extractVariables_preorder (L : Lib)
    (hlit : ∀ p k v, L.printExpr (.basicLit p k v) = v) :
    (∀ (L1 : Lib) (body : Block),
        extractVariables L1 (some body) = .ok ((blockNodes body).flatMap (specNodeRecords L1)))
      ∧ extractVariables L (some bodyXY) =
          .ok [{ Name := "x", Typ := "1" }, { Name := "y", Typ := "2" }] := by
  refine ⟨fun L1 body => extractVariables_some L1 body, ?_⟩
  rw [extractVariables_some]
  have h : (blockNodes bodyXY).flatMap (specNodeRecords L) =
      [{ Name := "x", Typ := L.printExpr (.basicLit 37 .INT "1") },
       { Name := "y", Typ := L.printExpr (.basicLit 56 .INT "2") }] := rfl
  rw [h, hlit, hlit]

theorem C2_extractVariables_preorder_witness :
    (∀ p k v, textLib.printExpr (.basicLit p k v) = v)
      ∧ extractVariables textLib (some bodyXY) =
          .ok [{ Name := "x", Typ := "1" }, { Name := "y", Typ := "2" }] :=
  ⟨fun _ _ _ => rfl, (C2_extractVariables_preorder textLib (fun _ _ _ => rfl)).2⟩

/-! ## Maps -/

theorem GoMap.get_set_self {V : Type} (k : String) (v : V) :
    ∀ m : GoMap V, (m.set k v).get k = some v
  | [] => by simp [GoMap.set, GoMap.get]
  | (k1, v1) :: m => by
      by_cases h : k1 = k
      · simp [GoMap.set, GoMap.get, h]
      · simp [GoMap.set, GoMap.get, h, GoMap.get_set_self k v m]

theorem GoMap.get_set_ne {V : Type} (k k2 : String) (v : V) (hne : k2 ≠ k) :
    ∀ m : GoMap V, (m.set k v).get k2 = m.get k2
  | [] => by simp [GoMap.set, GoMap.get, Ne.symm hne]
  | (k1, v1) :: m => by
      by_cases h : k1 = k
      · subst h
        simp [GoMap.set, GoMap.get, Ne.symm hne]
      · simp [GoMap.set, GoMap.get, h, GoMap.get_set_ne k k2 v hne m]

theorem GoMap.get_eq_none_iff {V : Type} (k : String) :
    ∀ m : GoMap V, m.get k = none ↔ k ∉ m.keys
  | [] => by simp [GoMap.get, GoMap.keys]
  | (k1, v1) :: m => by
      have ih := GoMap.get_eq_none_iff k m
      by_cases h : k1 = k
      · simp [GoMap.get, GoMap.keys, h]
      · simp only [GoMap.keys] at ih
        simp [GoMap.get, GoMap.keys, h, ih, Ne.symm h]

theorem GoMap.keys_set {V : Type} (k : String) (v : V) :
    ∀ m : GoMap V, (m.set k v).keys = if k ∈ m.keys then m.keys else m.keys ++ [k]
  | [] => by simp [GoMap.set, GoMap.keys]
  | (k1, v1) :: m => by
      have ih := GoMap.keys_set k v m
      simp only [GoMap.keys] at ih
      by_cases h : k1 = k
      · simp [GoMap.set, GoMap.keys, h]
      · by_cases hm : k ∈ List.map Prod.fst m
        · simp [GoMap.set, GoMap.keys, h, ih, hm]
        · simp [GoMap.set, GoMap.keys, h, ih, hm, Ne.symm h]

theorem GoMap.mem_keys_set {V : Type} (k k2 : String) (v : V) (m : GoMap V) :
    k2 ∈ (m.set k v).keys ↔ k2 = k ∨ k2 ∈ m.keys := by
  rw [GoMap.keys_set]
  by_cases hm : k ∈ m.keys
  · simp only [hm, if_true]
    constructor
    · exact fun h => Or.inr h
    · rintro (h | h)
      · exact h ▸ hm
      · exact h
  · simp only [hm, if_false, List.mem_append, List.mem_singleton]
    tauto

theorem GoMap.nodup_keys_set {V : Type} (k : String) (v : V) (m : GoMap V)
    (hm : m.keys.Nodup) : (m.set k v).keys.Nodup := by
  rw [GoMap.keys_set]
  by_cases hk : k ∈ m.keys
  · simpa [hk] using hm
  · simp only [hk, if_false]
    exact List.Nodup.append hm (List.nodup_singleton k) (by simpa using hk)

/-! ## The visitor -/

theorem Visit_funcDecl_some (L : Lib) (doc : Option CommentGroup) (recv : Option FieldList)
    (name : Ident) (typ : FuncType) (b : Block) (fns : GoMap FunctionDetails) :
    Visit L (.decl (.funcDecl doc recv name typ (some b))) fns =
      .ok (fns.set name.Name (funcRecord L doc recv name typ b), true) := by
  simp [Visit, extractVariables_some, funcRecord, bind, Except.bind, pure, Except.pure]

theorem Visit_funcDecl_none (L : Lib) (doc : Option CommentGroup) (recv : Option FieldList)
    (name : Ident) (typ : FuncType) (fns : GoMap FunctionDetails) :
    Visit L (.decl (.funcDecl doc recv name typ none)) fns = .error .nilDereference := by
  simp [Visit, extractVariables_none, bind, Except.bind]

/-! ## Receiver rendering -/

/-- C3: `fieldListToString` returns the empty string for every receiver list, also for a
list that is not empty: `printer.Fprint` does not print a `*ast.FieldList`.  For the
receiver `(t *T)` the result is `""` and not `"t *T"`. -/
theorem C3_fieldListToString_empty (L : Lib) (fl : Option FieldList) :
    fieldListToString L fl = ""
      ∧ fieldListToString L (some recvT) ≠ "t *T"
      ∧ ∀ (doc : Option CommentGroup) (body : Block) (fns : GoMap FunctionDetails),
          (Visit L (.decl (.funcDecl doc (some recvT) ⟨12, "Foo"⟩ noParams (some body))) fns).map
            (fun r => (r.1.get "Foo").map (fun d => d.Recv)) = .ok (some "") := by
  have h : ∀ fl, fieldListToString L fl = "" := by
    intro fl
    unfold fieldListToString
    split
    · rfl
    · split <;> simp [Fprint]
  refine ⟨h fl, ?_, ?_⟩
  · rw [h]; decide
  · intro doc body fns
    rw [Visit_funcDecl_some]
    simp [Except.map, GoMap.get_set_self, funcRecord, h]


/-! ## Totality -/

/-- C6: on a function declaration without a body, `extractVariables` and `Visit` do not
complete: `ast.Inspect` is handed the nil `*ast.BlockStmt`, and the traversal reads its
statement list.  No record is stored, and the traversal of a file that declares such a
function fails as well.  With a body, `Visit` stores a record, with or without a
documentation comment. -/
theorem C6_bodyless_declaration_panics (L : Lib) (doc : Option CommentGroup)
    (recv : Option FieldList) (name : Ident) (typ : FuncType) (pkg : Ident)
    (fns : GoMap FunctionDetails) :
    extractVariables L none = .error .nilDereference
      ∧ Visit L (.decl (.funcDecl doc recv name typ none)) fns = .error .nilDereference
      ∧ Walk (Visit L) (.file { Name := pkg, Decls := [.funcDecl doc recv name typ none] }) []
          = .error .nilDereference
      ∧ ∀ b : Block, ∃ fns1,
          Visit L (.decl (.funcDecl doc recv name typ (some b))) fns = .ok (fns1, true) := by
  refine ⟨extractVariables_none L, Visit_funcDecl_none L doc recv name typ fns, ?_, ?_⟩
  · simp [Walk, walkFile, walkLeaf, walkDecl, Visit, extractVariables_none, bind, Except.bind,
      pure, Except.pure]
  · intro b
    exact ⟨_, Visit_funcDecl_some L doc recv name typ b fns⟩

/-! ## The statement describer -/

/-- C8: for a for-loop without initializer, condition and post-step `StmtToString` returns
`"For Loop: Init: ; Cond: ; Post: "`: `printer.Fprint` writes nothing for a nil node, and
the nil sentinel `"<nil>"` does not appear.  In general each of the three components is
printed when present and contributes the empty text when absent, independently. -/
theorem C8_StmtToString_for_absent_components (L : Lib) (body : Block) :
    StmtToString L (some (.forStmt none none none body)) = "For Loop: Init: ; Cond: ; Post: "
      ∧ StmtToString L (some (.forStmt none none none body)) ≠
          "For Loop: Init: <nil>; Cond: <nil>; Post: <nil>"
      ∧ ∀ (init post : Option Stmt) (cond : Option Expr),
          StmtToString L (some (.forStmt init cond post body)) =
            "For Loop: Init: " ++ (init.map L.printStmt).getD "" ++
              "; Cond: " ++ (cond.map L.printExpr).getD "" ++
              "; Post: " ++ (post.map L.printStmt).getD "" := by
  refine ⟨rfl, ?_, ?_⟩
  · have h : StmtToString L (some (.forStmt none none none body)) =
        "For Loop: Init: ; Cond: ; Post: " := rfl
    rw [h]
    decide
  · intro init post cond
    cases init <;> cases post <;> cases cond <;>
      simp [StmtToString, Fprint, PrintArg.ofStmt, PrintArg.ofExpr, String.append_assoc]

theorem foldl_append_acc :
    ∀ (l : List String) (acc : String),
      l.foldl (fun r s => r ++ s) acc = acc ++ String.join l
  | [], acc => by simp [String.join]
  | a :: rest, acc => by
      have h1 := foldl_append_acc rest (acc ++ a)
      have h2 := foldl_append_acc rest ("" ++ a)
      simp only [String.join, List.foldl_cons] at h1 h2 ⊢
      rw [h1, h2, String.empty_append, String.append_assoc]

theorem join_cons (a : String) (l : List String) :
    String.join (a :: l) = a ++ String.join l := by
  have h := foldl_append_acc l ("" ++ a)
  simp only [String.join, List.foldl_cons] at h ⊢
  rw [h, String.empty_append]

theorem foldl_append_join (f : Expr → String) :
    ∀ (es : List Expr) (buf : String),
      es.foldl (fun buf e => buf ++ (f e ++ " ")) buf =
        buf ++ String.join (es.map (fun e => f e ++ " "))
  | [], buf => by simp [String.join]
  | e :: rest, buf => by
      rw [List.foldl_cons, foldl_append_join f rest, List.map_cons, join_cons,
        String.append_assoc]

/-- C9: `StmtToString` formats the sides of an assignment with `fmt`'s verb `%s`, not with
the printer: the result is `"Assignment: "`, the `%s` text of each left-hand side followed
by a space, `"= "`, and the `%s` text of each right-hand side followed by a space.  The
`%s` text of an identifier is its name; that of a basic literal is its struct, so that
for `x = 1` the result is `"Assignment: x = &{%!s(token.Pos=5) INT 1} "` and not
`"Assignment: x = 1 "`. -/
theorem C9_StmtToString_assignment_literal (L : Lib) :
    StmtToString L (some (.assign [.ident ⟨1, "x"⟩] "=" [.basicLit 5 .INT "1"])) =
        "Assignment: x = &\x7b%!s(token.Pos=5) INT 1\x7d "
      ∧ StmtToString L (some (.assign [.ident ⟨1, "x"⟩] "=" [.basicLit 5 .INT "1"])) ≠
        "Assignment: x = 1 "
      ∧ (∀ (lhs rhs : List Expr) (tok : String),
          StmtToString L (some (.assign lhs tok rhs)) =
            "Assignment: " ++ String.join (lhs.map (fun e => sprintS L e ++ " ")) ++ "= " ++
              String.join (rhs.map (fun e => sprintS L e ++ " ")))
      ∧ (∀ id : Ident, sprintS L (.ident id) = id.Name) := by
  have h : StmtToString L (some (.assign [.ident ⟨1, "x"⟩] "=" [.basicLit 5 .INT "1"])) =
      "Assignment: x = &\x7b%!s(token.Pos=5) INT 1\x7d " := by
    simp [StmtToString, sprintS, Kind.toString]
    decide
  refine ⟨h, ?_, ?_, fun _ => rfl⟩
  · rw [h]
    decide
  · intro lhs rhs tok
    simp only [StmtToString]
    rw [foldl_append_join, foldl_append_join]

/-! ## The diagnostic of the variable extractor -/

/-- C10: the diagnostic is written.  For the body `{ _ = uknown }` and a printer that
renders an identifier as its name, the descriptor of `_` is `uknown`, the guard of
`extractVariables` holds and the line is written; for `{ x, _ = f() }`, where the
descriptor of `_` is the sentinel `"unknown"`, nothing is written.  In general the lines
written are those of the identifiers `_` whose right-hand side at the same index is
rendered as `uknown`, in traversal order, and an identifier without a right-hand side at
its index never has one. -/
theorem C10_diagnostic_emitted_on_uknown (L : Lib) (body : Block) :
    (∃ st, extractVariablesOut textLib (some bodyDiscard) = .ok st
        ∧ st.vars = [{ Name := "_", Typ := "uknown" }]
        ∧ st.out = [" WARNING POTENTIAL IGNORED ERR 20\n"])
      ∧ (∃ st, extractVariablesOut L (some bodyIgnored) = .ok st
        ∧ st.vars = [{ Name := "x", Typ := L.printExpr (.call (.ident ⟨28, "f"⟩) []) },
                     { Name := "_", Typ := "unknown" }]
        ∧ st.out = [])
      ∧ (∃ st, extractVariablesOut L (some body) = .ok st
        ∧ st.out = (blockNodes body).flatMap (nodeWarnings L))
      ∧ (∀ (rhs : List Expr) (i : Nat) (e : Expr), rhs.length ≤ i →
          specWarning L rhs (i, e) = none)
      ∧ (∀ (rhs : List Expr) (i : Nat) (id : Ident) (r : Expr), rhs[i]? = some r →
          specWarning L rhs (i, .ident id) =
            if id.Name = "_" ∧ L.printExpr r = "uknown" then some (warningLine id.NamePos)
            else none) := by
  have hnone : ∀ (rhs : List Expr) (i : Nat) (e : Expr), rhs.length ≤ i →
      specWarning L rhs (i, e) = none := by
    intro rhs i e hi
    have h2 : rhs[i]? = none := List.getElem?_eq_none hi
    cases e <;> simp [specWarning, h2]
  refine ⟨⟨_, rfl, rfl, by decide⟩, ⟨_, extractVariablesOut_some L bodyIgnored, ?_, ?_⟩,
    ⟨_, extractVariablesOut_some L body, rfl⟩, hnone, ?_⟩
  · rfl
  · have h : (blockNodes bodyIgnored).flatMap (nodeWarnings L) =
        assignWarnings L [.ident ⟨20, "x"⟩, .ident ⟨23, "_"⟩] [.call (.ident ⟨28, "f"⟩) []] := by
      simp [bodyIgnored, blockNodes, stmtsNodes, stmtNodes, exprsNodes, exprNodes,
        nodeWarnings]
    simp only [h]
    by_cases hw : L.printExpr (.call (.ident ⟨28, "f"⟩) []) = "uknown"
    · simp [assignWarnings, List.enum, List.enumFrom_cons, specWarning, hw]
    · simp [assignWarnings, List.enum, List.enumFrom_cons, specWarning, hw]
  · intro rhs i id r hr
    simp [specWarning, hr]

/-! ## The per-file map -/

theorem Visit_plain (L : Lib) (n : Node) (m : GoMap FunctionDetails) (h : n.plain = true) :
    Visit L n m = .ok (m, true) := by
  cases n <;> first | rfl | simp [Node.plain] at h

theorem Visit_nil (L : Lib) (m : GoMap FunctionDetails) : Visit L .nil m = .ok (m, false) := rfl

theorem foldl_id {α β : Type} (l : List α) (s : β) : l.foldl (fun s _ => s) s = s := by
  induction l with
  | nil => rfl
  | cons a l ih => simp

theorem walkLeaf_Visit (L : Lib) (n : Node) (h : n.plain = true) (m : GoMap FunctionDetails) :
    walkLeaf (Visit L) n m = .ok m :=
  walkLeaf_eq (Visit L) (fun _ s => s) false (Visit_plain L) (Visit_nil L) n h m

theorem walkFuncType_Visit (L : Lib) (t : FuncType) (m : GoMap FunctionDetails) :
    walkFuncType (Visit L) t m = .ok m := by
  rw [walkFuncType_eq (Visit L) (fun _ s => s) false (Visit_plain L) (Visit_nil L)]
  simp [foldl_id]

theorem walkBlock_Visit (L : Lib) (b : Block) (m : GoMap FunctionDetails) :
    walkBlock (Visit L) b m = .ok m := by
  rw [walkBlock_eq (Visit L) (fun _ s => s) false (Visit_plain L) (Visit_nil L)]
  simp [foldl_id]

theorem walkOptFieldList_Visit (L : Lib) (l : Option FieldList) (m : GoMap FunctionDetails) :
    walkOptFieldList (Visit L) l m = .ok m := by
  rw [walkOptFieldList_eq (Visit L) (fun _ s => s) false (Visit_plain L) (Visit_nil L)]
  simp [foldl_id]

theorem walkGenDecl_Visit (L : Lib) (d : GenDecl) (m : GoMap FunctionDetails) :
    walkGenDecl (Visit L) d m = .ok m := by
  rw [walkGenDecl_eq (Visit L) (fun _ s => s) false (Visit_plain L) (Visit_nil L)]
  simp [foldl_id]

theorem walkCommentGroup_Visit (L : Lib) (g : CommentGroup) (m : GoMap FunctionDetails) :
    walkCommentGroup (Visit L) g m = .ok m := by
  have hl : ∀ (cs : List String) (m : GoMap FunctionDetails),
      cs.foldlM (fun s c => walkLeaf (Visit L) (.comment c) s) m = .ok m := by
    intro cs
    induction cs with
    | nil => intro m; rfl
    | cons c cs ih =>
        intro m
        rw [List.foldlM_cons, walkLeaf_Visit L (.comment c) rfl]
        exact ih m
  unfold walkCommentGroup
  rw [Visit_plain L (.commentGroup g) m rfl]
  simp [hl, Visit_nil, bind, Except.bind, pure, Except.pure]

theorem walkDecl_Visit (L : Lib) (d : Decl) (m : GoMap FunctionDetails) :
    walkDecl (Visit L) d m = declStep L d m := by
  cases d with
  | genDecl g => simp [walkDecl, declStep, walkGenDecl_Visit]
  | funcDecl doc recv name typ body =>
      cases body with
      | none => simp [walkDecl, declStep, Visit_funcDecl_none, bind, Except.bind]
      | some b =>
          simp only [walkDecl]
          rw [Visit_funcDecl_some]
          cases doc <;>
            simp [declStep, walkCommentGroup_Visit, walkFuncType_Visit, walkBlock_Visit,
              walkOptFieldList_Visit, walkLeaf_Visit, Node.plain, Visit_nil, bind,
              Except.bind, pure, Except.pure]

theorem walkFile_Visit (L : Lib) (f : File) (m : GoMap FunctionDetails) :
    Walk (Visit L) (.file f) m = f.Decls.foldlM (fun m d => declStep L d m) m := by
  have hd : (fun m d => walkDecl (Visit L) d m) = (fun m d => declStep L d m) := by
    funext m d
    exact walkDecl_Visit L d m
  unfold Walk walkFile
  simp only []
  rw [Visit_plain L (.file f) m rfl, hd]
  simp only [bind, Except.bind, if_true, walkLeaf_Visit L (.expr (.ident f.Name)) rfl, Visit_nil,
    pure, Except.pure]
  cases List.foldlM (fun m d => declStep L d m) m f.Decls <;> rfl

theorem declNames_append (ds : List Decl) (d : Decl) :
    declNames (ds ++ [d]) = declNames ds ++ declNames [d] := by
  induction ds with
  | nil => simp [declNames]
  | cons a ds ih => cases a <;> simp [declNames, ih]

theorem lastDeclRecord_append (L : Lib) (k : String) (ds : List Decl) (d : Decl) :
    lastDeclRecord L k (ds ++ [d]) =
      match recordNamed L k d with
      | some r => some r
      | none => lastDeclRecord L k ds := by
  cases h : recordNamed L k d <;>
    simp [lastDeclRecord, List.reverse_append, List.findSome?_cons, h]

theorem foldlM_declStep_append (L : Lib) (ds : List Decl) (d : Decl)
    (m0 m : GoMap FunctionDetails)
    (h : (ds ++ [d]).foldlM (fun m d => declStep L d m) m0 = .ok m) :
    ∃ m1, ds.foldlM (fun m d => declStep L d m) m0 = .ok m1 ∧ declStep L d m1 = .ok m := by
  rw [List.foldlM_append] at h
  cases hds : List.foldlM (fun m d => declStep L d m) m0 ds with
  | error e => simp [hds, bind, Except.bind] at h
  | ok m1 =>
      refine ⟨m1, rfl, ?_⟩
      simp only [hds, bind, Except.bind, List.foldlM_cons, List.foldlM_nil] at h
      cases hd : declStep L d m1 with
      | error e => simp [hd] at h
      | ok m2 =>
          simp only [hd, pure, Except.pure] at h
          exact h

theorem perFile_invariant (L : Lib) (ds : List Decl) :
    ∀ m, ds.foldlM (fun m d => declStep L d m) [] = .ok m →
      m.keys.Nodup ∧ (∀ k, k ∈ m.keys ↔ k ∈ declNames ds) ∧
        ∀ k, m.get k = lastDeclRecord L k ds := by
  induction ds using List.reverseRecOn with
  | nil =>
      intro m h
      simp only [List.foldlM_nil, pure, Except.pure, Except.ok.injEq] at h
      subst h
      simp [GoMap.keys, declNames, GoMap.get, lastDeclRecord]
  | append_singleton ds d ih =>
      intro m h
      obtain ⟨m1, h1, hd⟩ := foldlM_declStep_append L ds d [] m h
      obtain ⟨hn, hk, hg⟩ := ih m1 h1
      cases d with
      | genDecl g =>
          simp only [declStep, Except.ok.injEq] at hd
          subst hd
          refine ⟨hn, ?_, ?_⟩
          · intro k
            rw [declNames_append, hk]
            simp [declNames]
          · intro k
            rw [lastDeclRecord_append, hg]
            simp [recordNamed]
      | funcDecl doc recv name typ body =>
          cases body with
          | none => simp [declStep] at hd
          | some b =>
              simp only [declStep, Except.ok.injEq] at hd
              subst hd
              refine ⟨GoMap.nodup_keys_set _ _ _ hn, ?_, ?_⟩
              · intro k
                rw [GoMap.mem_keys_set, declNames_append, hk]
                simp [declNames, or_comm]
              · intro k
                rw [lastDeclRecord_append]
                by_cases hkn : name.Name = k
                · subst hkn
                  simp [recordNamed, GoMap.get_set_self]
                · simp [recordNamed, hkn, GoMap.get_set_ne _ _ _ (Ne.symm hkn), hg]

theorem perFile_total (L : Lib) :
    ∀ (ds : List Decl) (m0 : GoMap FunctionDetails), (∀ d ∈ ds, d.hasBody = true) →
      ∃ m, ds.foldlM (fun m d => declStep L d m) m0 = .ok m
  | [], m0, _ => ⟨m0, rfl⟩
  | d :: rest, m0, h => by
      have hd : d.hasBody = true := h d (List.mem_cons_self d rest)
      have hr : ∀ x ∈ rest, x.hasBody = true := fun x hx => h x (List.mem_cons_of_mem d hx)
      cases d with
      | genDecl g =>
          obtain ⟨m, hm⟩ := perFile_total L rest m0 hr
          exact ⟨m, by simpa [List.foldlM_cons, declStep, bind, Except.bind] using hm⟩
      | funcDecl doc recv name typ body =>
          cases body with
          | none => simp [Decl.hasBody] at hd
          | some b =>
              obtain ⟨m, hm⟩ := perFile_total L rest _ hr
              exact ⟨m, by simpa [List.foldlM_cons, declStep, bind, Except.bind] using hm⟩

theorem perFile_invariant_walk (L : Lib) (f : File) (m : GoMap FunctionDetails)
    (hm : Walk (Visit L) (.file f) [] = .ok m) :
    m.keys.Nodup ∧ (∀ k, k ∈ m.keys ↔ k ∈ declNames f.Decls) ∧
      ∀ k, m.get k = lastDeclRecord L k f.Decls := by
  rw [walkFile_Visit] at hm
  exact perFile_invariant L f.Decls m hm

/-- C4: the traversal of a parsed file by the function analyzer, started on an empty map,
completes when every function declaration has a body; the map it leaves has one record
per distinct declared function or method name (as many records as declarations when
their names are pairwise distinct), and the record of a name is the one built from the
last declaration of that name. -/
theorem C4_per_file_map_one_record_per_name (L : Lib) (f : File) :
    ((∀ d ∈ f.Decls, d.hasBody = true) → ∃ m, Walk (Visit L) (.file f) [] = .ok m)
      ∧ ∀ m, Walk (Visit L) (.file f) [] = .ok m →
          m.keys.Nodup
            ∧ (∀ k, k ∈ m.keys ↔ k ∈ declNames f.Decls)
            ∧ m.length = (declNames f.Decls).dedup.length
            ∧ ((declNames f.Decls).Nodup → m.length = (declNames f.Decls).length)
            ∧ ∀ k, m.get k = lastDeclRecord L k f.Decls := by
  refine ⟨fun hb => ?_, fun m hm => ?_⟩
  · rw [walkFile_Visit]
    exact perFile_total L f.Decls [] hb
  · rw [walkFile_Visit] at hm
    obtain ⟨hn, hk, hg⟩ := perFile_invariant L f.Decls m hm
    have hperm : m.keys.Perm (declNames f.Decls).dedup :=
      (List.perm_ext_iff_of_nodup hn (List.nodup_dedup _)).2
        (fun k => by rw [hk, List.mem_dedup])
    have hlen : m.length = (declNames f.Decls).dedup.length := by
      rw [← hperm.length_eq]
      simp [GoMap.keys]
    refine ⟨hn, hk, hlen, ?_, hg⟩
    intro hnd
    rw [hlen, hnd.dedup]

theorem perFile_fileTwice :
    Walk (Visit textLib) (.file fileTwice) [] =
      .ok [("F", funcRecord textLib none none ⟨40, "F"⟩ noParams bodyDiscard)] := by
  rw [walkFile_Visit]
  rfl

/-! ## The function table -/

theorem fullName_inj_name (p f n1 n2 : String) (h : fullName p n1 f = fullName p n2 f) :
    n1 = n2 := by
  have hd := congrArg String.data h
  simp only [fullName, String.data_append] at hd
  have h1 := List.append_cancel_right hd
  have h2 := List.append_cancel_right h1
  have h3 := List.append_cancel_right h2
  have h4 := List.append_cancel_left h3
  exact String.ext h4

theorem GoMap.get_eq_some_iff {V : Type} (k : String) (v : V) :
    ∀ m : GoMap V, m.keys.Nodup → (m.get k = some v ↔ (k, v) ∈ m)
  | [], _ => by simp [GoMap.get]
  | (k1, v1) :: m, hnd => by
      have hnd2 : k1 ∉ GoMap.keys m ∧ (GoMap.keys m).Nodup := by
        simpa [GoMap.keys] using hnd
      have ih := GoMap.get_eq_some_iff k v m hnd2.2
      by_cases h : k1 = k
      · subst h
        have hnot : (k1, v) ∉ m := fun hm => hnd2.1 (List.mem_map_of_mem Prod.fst hm)
        simp [GoMap.get, hnot, eq_comm]
      · simp [GoMap.get, h, ih, Ne.symm h]

theorem addFunctions_cons (p f : String) (n : String) (r : FunctionDetails)
    (rest T : GoMap FunctionDetails) :
    addFunctions p f ((n, r) :: rest) T = addFunctions p f rest (T.set (fullName p n f) r) :=
  rfl

theorem addFunctions_get_other (p f : String) :
    ∀ (fns T : GoMap FunctionDetails) (k : String),
      (∀ n ∈ fns.keys, k ≠ fullName p n f) → (addFunctions p f fns T).get k = T.get k
  | [], T, k, _ => rfl
  | (n, r) :: rest, T, k, h => by
      have hk : k ≠ fullName p n f := h n (by simp [GoMap.keys])
      have hr : ∀ n1 ∈ GoMap.keys rest, k ≠ fullName p n1 f := fun n1 hn1 =>
        h n1 (by simp only [GoMap.keys, List.map_cons, List.mem_cons]; exact Or.inr hn1)
      rw [addFunctions_cons, addFunctions_get_other p f rest _ k hr, GoMap.get_set_ne _ _ _ hk]

theorem addFunctions_get_key (p f : String) :
    ∀ (fns T : GoMap FunctionDetails) (n : String) (r : FunctionDetails),
      fns.keys.Nodup → fns.get n = some r →
        (addFunctions p f fns T).get (fullName p n f) = some r
  | [], T, n, r, _, h => by simp [GoMap.get] at h
  | (n1, r1) :: rest, T, n, r, hnd, h => by
      have hnd2 : n1 ∉ GoMap.keys rest ∧ (GoMap.keys rest).Nodup := by
        simpa [GoMap.keys] using hnd
      rw [addFunctions_cons]
      by_cases hn : n1 = n
      · subst hn
        have hr : r1 = r := by simpa [GoMap.get] using h
        subst hr
        have hoth : ∀ n2 ∈ GoMap.keys rest, fullName p n1 f ≠ fullName p n2 f := by
          intro n2 hn2 hEq
          have h12 : n1 = n2 := fullName_inj_name p f n1 n2 hEq
          exact hnd2.1 (by rw [h12]; exact hn2)
        rw [addFunctions_get_other p f rest _ _ hoth, GoMap.get_set_self]
      · have h2 : GoMap.get rest n = some r := by simpa [GoMap.get, hn] using h
        exact addFunctions_get_key p f rest _ n r hnd2.2 h2

theorem addFunctions_order (p f : String) (fns fns1 T : GoMap FunctionDetails)
    (hnd : fns.keys.Nodup) (hperm : fns1.Perm fns) (k : String) :
    (addFunctions p f fns1 T).get k = (addFunctions p f fns T).get k := by
  have hkeys : (GoMap.keys fns1).Perm (GoMap.keys fns) := hperm.map Prod.fst
  have hnd1 : (GoMap.keys fns1).Nodup := hkeys.nodup_iff.2 hnd
  by_cases hk : ∃ n ∈ fns.keys, k = fullName p n f
  · obtain ⟨n, hn, rfl⟩ := hk
    cases hg : fns.get n with
    | none => exact absurd hn ((GoMap.get_eq_none_iff n fns).1 hg)
    | some r =>
        have hmem : (n, r) ∈ fns1 := hperm.mem_iff.2 ((GoMap.get_eq_some_iff n r fns hnd).1 hg)
        rw [addFunctions_get_key p f fns T n r hnd hg,
          addFunctions_get_key p f fns1 T n r hnd1 ((GoMap.get_eq_some_iff n r fns1 hnd1).2 hmem)]
  · have h0 : ∀ n ∈ fns.keys, k ≠ fullName p n f := fun n hn hEq => hk ⟨n, hn, hEq⟩
    have h1 : ∀ n ∈ fns1.keys, k ≠ fullName p n f := fun n hn => h0 n (hkeys.mem_iff.1 hn)
    rw [addFunctions_get_other p f fns T k h0, addFunctions_get_other p f fns1 T k h1]

/-! ## Keys of the table -/

theorem addFunctions_keys_mono (p f : String) :
    ∀ (fns T : GoMap FunctionDetails) (k : String), k ∈ T.keys → k ∈ (addFunctions p f fns T).keys
  | [], T, k, h => h
  | (n, r) :: rest, T, k, h => by
      rw [addFunctions_cons]
      exact addFunctions_keys_mono p f rest _ k ((GoMap.mem_keys_set _ _ _ _).2 (Or.inr h))

theorem addFunctions_keys_new (p f : String) :
    ∀ (fns T : GoMap FunctionDetails) (n : String), n ∈ GoMap.keys fns →
      fullName p n f ∈ (addFunctions p f fns T).keys
  | [], T, n, h => by simp [GoMap.keys] at h
  | (n1, r) :: rest, T, n, h => by
      rw [addFunctions_cons]
      have h2 : n = n1 ∨ n ∈ GoMap.keys rest := by simpa [GoMap.keys] using h
      rcases h2 with h2 | h2
      · subst h2
        exact addFunctions_keys_mono p f rest _ _ ((GoMap.mem_keys_set _ _ _ _).2 (Or.inl rfl))
      · exact addFunctions_keys_new p f rest _ n h2

theorem applyWrites_map (p f : String) (fns T : GoMap FunctionDetails) :
    applyWrites (fns.map (fun nd => (fullName p nd.1 f, nd.2))) T = addFunctions p f fns T := by
  simp [applyWrites, addFunctions, List.foldl_map]

theorem applyWrites_append (w w1 : List (String × FunctionDetails))
    (T : GoMap FunctionDetails) :
    applyWrites (w ++ w1) T = applyWrites w1 (applyWrites w T) := by
  simp [applyWrites, List.foldl_append]

/-! ## Rendering of absent nodes -/

/-- C13: `exprToString` on an absent expression and `StmtToString` on an absent statement
return the sentinel `"<nil>"`; both are total functions. -/
theorem C13_nil_renders_as_sentinel (L : Lib) :
    exprToString L none = "<nil>" ∧ StmtToString L none = "<nil>" :=
  ⟨rfl, rfl⟩

/-! ## The record of a declaration -/

/-- C14: on a function declaration without a body `Visit` stores no record: the
extraction of the variables does not return and `Visit` panics with it.  On every function
or method declaration `Visit` runs `extractVariables` on the body and, when that returns,
stores under the declaration's name the record made of the text of the leading comment
group (the empty string without one), the receiver rendering, the name, the
declaration's own signature and body, and the extracted variables; with a body present
the extraction returns and the record is in the map. -/
theorem C14_Visit_bodyless_declaration_stores_nothing (L : Lib) (doc : Option CommentGroup)
    (recv : Option FieldList) (name : Ident) (typ : FuncType) (body : Option Block)
    (fns : GoMap FunctionDetails) :
    Visit L (.decl (.funcDecl doc recv name typ none)) fns = .error .nilDereference
      ∧ Visit L (.decl (.funcDecl doc recv name typ body)) fns =
        (extractVariables L body).map (fun vars =>
          (fns.set name.Name
            { Doc := match doc with
                | none => ""
                | some g => L.commentText g
              Recv := fieldListToString L recv
              Name := name.Name
              Typ := typ
              Variables := vars
              Body := body }, true))
      ∧ ∀ b : Block, body = some b →
          ∃ vars fns1, extractVariables L body = .ok vars
            ∧ Visit L (.decl (.funcDecl doc recv name typ body)) fns = .ok (fns1, true)
            ∧ fns1.get name.Name =
                some { Doc := match doc with
                         | none => ""
                         | some g => L.commentText g
                       Recv := fieldListToString L recv
                       Name := name.Name
                       Typ := typ
                       Variables := vars
                       Body := body } := by
  have h1 : Visit L (.decl (.funcDecl doc recv name typ body)) fns =
      (extractVariables L body).map (fun vars =>
        (fns.set name.Name
          { Doc := match doc with
              | none => ""
              | some g => L.commentText g
            Recv := fieldListToString L recv
            Name := name.Name
            Typ := typ
            Variables := vars
            Body := body }, true)) := by
    simp only [Visit, bind, Except.bind, pure, Except.pure, Except.map]
    cases extractVariables L body with
    | error p => rfl
    | ok vars => cases doc <;> rfl
  refine ⟨Visit_funcDecl_none L doc recv name typ fns, h1, ?_⟩
  intro b hb
  subst hb
  refine ⟨(blockNodes b).flatMap (specNodeRecords L), _, extractVariables_some L b, ?_,
    GoMap.get_set_self _ _ fns⟩
  rw [h1, extractVariables_some]
  rfl

/-- C15: on a function declaration without a body, a node that is not nil, `Visit` returns
no visitor: it panics in the extraction of the variables.  On a node that is no function
declaration `Visit` leaves the per-file map as it is, and it returns the visitor unless
the node is nil, for which it returns nil; on a function declaration with a body it
returns the visitor as well; and whenever `Visit` returns, the visitor is returned exactly
for the nodes that are not nil. -/
theorem C15_Visit_bodyless_declaration_returns_no_visitor (L : Lib)
    (m : GoMap FunctionDetails) :
    (∀ doc recv name typ,
        Visit L (.decl (.funcDecl doc recv name typ none)) m = .error .nilDereference)
      ∧ (∀ n : Node, (∀ doc recv name typ body, n ≠ .decl (.funcDecl doc recv name typ body)) →
        Visit L n m = .ok (m, !n.isNil))
      ∧ Visit L .nil m = .ok (m, false)
      ∧ (∀ doc recv name typ (b : Block), ∃ m1,
          Visit L (.decl (.funcDecl doc recv name typ (some b))) m = .ok (m1, true))
      ∧ (∀ (n : Node) (r : GoMap FunctionDetails × Bool), Visit L n m = .ok r →
          r.2 = !n.isNil) := by
  have hplain : ∀ n : Node,
      (∀ doc recv name typ body, n ≠ .decl (.funcDecl doc recv name typ body)) →
        Visit L n m = .ok (m, !n.isNil) := by
    intro n hn
    cases n with
    | decl d =>
        cases d with
        | funcDecl doc recv name typ body => exact absurd rfl (hn doc recv name typ body)
        | genDecl g => rfl
    | _ => rfl
  refine ⟨fun doc recv name typ => Visit_funcDecl_none L doc recv name typ m, hplain, rfl,
    fun doc recv name typ b => ⟨_, Visit_funcDecl_some L doc recv name typ b m⟩, ?_⟩
  intro n r hr
  by_cases hd : ∃ doc recv name typ body, n = .decl (.funcDecl doc recv name typ body)
  · obtain ⟨doc, recv, name, typ, body, rfl⟩ := hd
    cases body with
    | none => rw [Visit_funcDecl_none] at hr; simp at hr
    | some b =>
        rw [Visit_funcDecl_some] at hr
        simp only [Except.ok.injEq] at hr
        rw [← hr]; rfl
  · have hn : ∀ doc recv name typ body, n ≠ .decl (.funcDecl doc recv name typ body) :=
      fun doc recv name typ body h => hd ⟨doc, recv, name, typ, body, h⟩
    rw [hplain n hn] at hr
    simp only [Except.ok.injEq] at hr
    rw [← hr]

/-! ## The signature describer -/

theorem paramLoop_ok (L : Lib) :
    ∀ (params : List Field) (buf : String), (∀ f ∈ params, f.hasName = true) →
      params.foldlM (paramStep L) buf = .ok (buf ++ String.join (params.map (paramText L)))
  | [], buf, _ => by simp [String.join, pure, Except.pure]
  | f :: rest, buf, h => by
      have hf : f.hasName = true := h f (List.mem_cons_self f rest)
      have hr : ∀ x ∈ rest, x.hasName = true := fun x hx => h x (List.mem_cons_of_mem f hx)
      cases f with
      | mk names typ =>
          cases names with
          | nil => simp [Field.hasName, Field.names] at hf
          | cons n0 ns =>
              have hstep : paramStep L buf (.mk (n0 :: ns) typ) =
                  .ok (buf ++ (n0.Name ++ " " ++ sprintV L typ ++ ", ")) := by
                simp [paramStep, pure, Except.pure]
              rw [List.foldlM_cons, hstep]
              simp only [bind, Except.bind]
              rw [paramLoop_ok L rest _ hr, List.map_cons, join_cons]
              simp [paramText, Field.names, Field.typ, String.append_assoc]

theorem paramLoop_panics (L : Lib) :
    ∀ (params : List Field) (buf : String), (∃ f ∈ params, f.hasName = false) →
      params.foldlM (paramStep L) buf = .error Panic.indexOutOfRange
  | [], buf, h => by
      obtain ⟨f, hf, _⟩ := h
      simp at hf
  | f :: rest, buf, h => by
      cases f with
      | mk names typ =>
          cases names with
          | nil =>
              rw [List.foldlM_cons]
              rfl
          | cons n0 ns =>
              have hr : ∃ x ∈ rest, x.hasName = false := by
                obtain ⟨x, hx, hxn⟩ := h
                rcases List.mem_cons.1 hx with rfl | hx
                · simp [Field.hasName, Field.names] at hxn
                · exact ⟨x, hx, hxn⟩
              have hstep : paramStep L buf (.mk (n0 :: ns) typ) =
                  .ok (buf ++ (n0.Name ++ " " ++ sprintV L typ ++ ", ")) := by
                simp [paramStep, pure, Except.pure]
              rw [List.foldlM_cons, hstep]
              simp only [bind, Except.bind]
              exact paramLoop_panics L rest _ hr

theorem resultLoop_eq (L : Lib) :
    ∀ (list : List Field) (buf : String),
      list.foldl (resultStep L) buf = buf ++ String.join (list.map (resultText L))
  | [], buf => by simp [String.join]
  | f :: rest, buf => by
      cases f with
      | mk names typ =>
          rw [List.foldl_cons, resultLoop_eq L rest, List.map_cons, join_cons]
          simp [resultStep, resultText, Field.typ, String.append_assoc]

theorem FuncTypeToString_ok (L : Lib) (params : List Field) (results : Option FieldList)
    (h : ∀ f ∈ params, f.hasName = true) :
    FuncTypeToString L (.mk (.mk params) results) =
      .ok ("Parameters: " ++ String.join (params.map (paramText L)) ++
        returnsText L results) := by
  simp only [FuncTypeToString, bind, Except.bind]
  rw [paramLoop_ok L params _ h]
  cases results with
  | none => simp [returnsText, pure, Except.pure]
  | some rl =>
      cases rl with
      | mk list => simp [returnsText, resultLoop_eq, pure, Except.pure, String.append_assoc]

theorem FuncTypeToString_panics (L : Lib) (params : List Field) (results : Option FieldList)
    (h : ∃ f ∈ params, f.hasName = false) :
    FuncTypeToString L (.mk (.mk params) results) = .error .indexOutOfRange := by
  simp only [FuncTypeToString, bind, Except.bind]
  rw [paramLoop_panics L params _ h]

/-- C20: `FuncTypeToString` completes if and only if every field of the parameter list
carries at least one name; otherwise `field.Names[0]` is an index out of range.  When it
completes the result is `"Parameters: "`, then for each parameter field its first name, a
space, the text of its type and `", "`, then, exactly when the signature has a result
list, `" | Returns: "` and for each result field the text of its type and `", "`. -/
theorem C20_FuncTypeToString_first_names (L : Lib) (params : List Field)
    (results : Option FieldList) :
    ((∃ s, FuncTypeToString L (.mk (.mk params) results) = .ok s) ↔
        ∀ f ∈ params, f.hasName = true)
      ∧ ((∀ f ∈ params, f.hasName = true) →
          FuncTypeToString L (.mk (.mk params) results) =
            .ok ("Parameters: " ++ String.join (params.map (paramText L)) ++
              returnsText L results))
      ∧ ((∃ f ∈ params, f.hasName = false) →
          FuncTypeToString L (.mk (.mk params) results) = .error .indexOutOfRange)
      ∧ FuncTypeToString L sigNamed = .ok "Parameters: a int, s string,  | Returns: error, "
      ∧ FuncTypeToString L sigUnnamed = .error .indexOutOfRange := by
  have hok := FuncTypeToString_ok L params results
  have hbad := FuncTypeToString_panics L params results
  refine ⟨⟨?_, fun h => ⟨_, hok h⟩⟩, hok, hbad, ?_, ?_⟩
  · rintro ⟨s, hs⟩
    by_contra hne
    push_neg at hne
    obtain ⟨f, hf, hfn⟩ := hne
    rw [hbad ⟨f, hf, by simpa using hfn⟩] at hs
    simp at hs
  · rw [sigNamed, FuncTypeToString_ok L _ _ (by decide)]
    simp [paramText, returnsText, resultText, sprintV, Field.names, Field.typ, join_cons,
      String.join]
  · rfl

/-! ## The composite key -/

theorem append_cons_inj_of_not_mem {α : Type} (a : α) :
    ∀ (l1 l2 r1 r2 : List α), a ∉ l1 → a ∉ l2 → l1 ++ a :: r1 = l2 ++ a :: r2 →
      l1 = l2 ∧ r1 = r2
  | [], [], r1, r2, _, _, h => by
      simp only [List.nil_append, List.cons.injEq, true_and] at h
      exact ⟨rfl, h⟩
  | [], b :: l2, r1, r2, _, h2, h => by
      simp only [List.nil_append, List.cons_append, List.cons.injEq] at h
      exact absurd (h.1 ▸ List.mem_cons_self b l2) h2
  | b :: l1, [], r1, r2, h1, _, h => by
      simp only [List.nil_append, List.cons_append, List.cons.injEq] at h
      exact absurd (h.1 ▸ List.mem_cons_self b l1) h1
  | b :: l1, c :: l2, r1, r2, h1, h2, h => by
      simp only [List.cons_append, List.cons.injEq] at h
      obtain ⟨ih1, ih2⟩ := append_cons_inj_of_not_mem a l1 l2 r1 r2
        (fun hm => h1 (List.mem_cons_of_mem b hm)) (fun hm => h2 (List.mem_cons_of_mem c hm)) h.2
      exact ⟨by rw [h.1, ih1], ih2⟩

theorem fullName_data (p n f : String) :
    (fullName p n f).data = p.data ++ '.' :: (n.data ++ ' ' :: ('(' :: (f.data ++ [')']))) := by
  simp [fullName, String.data_append]

theorem fullName_inj (p1 n1 f1 p2 n2 f2 : String) (hp1 : '.' ∉ p1.data) (hp2 : '.' ∉ p2.data)
    (hn1 : ' ' ∉ n1.data) (hn2 : ' ' ∉ n2.data)
    (h : fullName p1 n1 f1 = fullName p2 n2 f2) : p1 = p2 ∧ n1 = n2 ∧ f1 = f2 := by
  have hd := congrArg String.data h
  rw [fullName_data, fullName_data] at hd
  obtain ⟨hp, hrest⟩ := append_cons_inj_of_not_mem '.' _ _ _ _ hp1 hp2 hd
  obtain ⟨hn, hrest2⟩ := append_cons_inj_of_not_mem ' ' _ _ _ _ hn1 hn2 hrest
  simp only [List.cons.injEq, true_and] at hrest2
  exact ⟨String.ext hp, String.ext hn, String.ext (List.append_cancel_right hrest2)⟩

/-- C17: for package names without a `.` and function names without a space (as every
identifier is), and for any file paths, the composite keys `p1.n1 (f1)` and `p2.n2 (f2)`
are equal only if `p1 = p2`, `n1 = n2` and `f1 = f2`; so a write under one key leaves the
entry of the other as it is when package, name or path differ. -/
theorem C17_composite_key_injective (p1 n1 f1 p2 n2 f2 : String)
    (hp1 : '.' ∉ p1.data) (hp2 : '.' ∉ p2.data) (hn1 : ' ' ∉ n1.data) (hn2 : ' ' ∉ n2.data) :
    (p1 ++ "." ++ n1 ++ " (" ++ f1 ++ ")" = p2 ++ "." ++ n2 ++ " (" ++ f2 ++ ")" →
        p1 = p2 ∧ n1 = n2 ∧ f1 = f2)
      ∧ ∀ (T : GoMap FunctionDetails) (r : FunctionDetails),
          ¬(p1 = p2 ∧ n1 = n2 ∧ f1 = f2) →
            (T.set (fullName p1 n1 f1) r).get (fullName p2 n2 f2) =
              T.get (fullName p2 n2 f2) := by
  refine ⟨fun h => fullName_inj p1 n1 f1 p2 n2 f2 hp1 hp2 hn1 hn2 h, ?_⟩
  intro T r hne
  apply GoMap.get_set_ne
  intro heq
  exact hne (fullName_inj p1 n1 f1 p2 n2 f2 hp1 hp2 hn1 hn2 heq.symm)

theorem C17_composite_key_injective_witness :
    '.' ∉ "p".data ∧ '.' ∉ "q".data ∧ ' ' ∉ "Foo".data ∧ ' ' ∉ "Foo".data
      ∧ (("p" ++ "." ++ "Foo" ++ " (" ++ "a/foo.go" ++ ")" =
            "q" ++ "." ++ "Foo" ++ " (" ++ "a/foo.go" ++ ")" →
          "p" = "q" ∧ "Foo" = "Foo" ∧ "a/foo.go" = "a/foo.go")
        ∧ ∀ (T : GoMap FunctionDetails) (r : FunctionDetails),
            ¬("p" = "q" ∧ "Foo" = "Foo" ∧ "a/foo.go" = "a/foo.go") →
              (T.set (fullName "p" "Foo" "a/foo.go") r).get (fullName "q" "Foo" "a/foo.go") =
                T.get (fullName "q" "Foo" "a/foo.go")) :=
  ⟨by decide, by decide, by decide, by decide,
    C17_composite_key_injective "p" "Foo" "a/foo.go" "q" "Foo" "a/foo.go"
      (by decide) (by decide) (by decide) (by decide)⟩

/-! ## The table after a walk -/

theorem applyWrites_cons (k1 : String) (v1 : FunctionDetails)
    (w : List (String × FunctionDetails)) (T : GoMap FunctionDetails) :
    applyWrites ((k1, v1) :: w) T = applyWrites w (T.set k1 v1) := rfl

theorem applyWrites_get_none :
    ∀ (w : List (String × FunctionDetails)) (T : GoMap FunctionDetails) (k : String),
      lastWrite w k = none → (applyWrites w T).get k = T.get k
  | [], _, _, _ => rfl
  | (k1, v1) :: w, T, k, h => by
      rw [applyWrites_cons]
      cases hl : lastWrite w k with
      | some v2 => simp [lastWrite, hl] at h
      | none =>
          simp only [lastWrite, hl] at h
          by_cases hk : k1 = k
          · simp [hk] at h
          · rw [applyWrites_get_none w _ k hl, GoMap.get_set_ne _ _ _ (Ne.symm hk)]

theorem applyWrites_get_some :
    ∀ (w : List (String × FunctionDetails)) (T : GoMap FunctionDetails) (k : String)
      (v : FunctionDetails), lastWrite w k = some v → (applyWrites w T).get k = some v
  | [], _, _, _, h => by simp [lastWrite] at h
  | (k1, v1) :: w, T, k, v, h => by
      rw [applyWrites_cons]
      cases hl : lastWrite w k with
      | some v2 =>
          simp only [lastWrite, hl, Option.some.injEq] at h
          subst h
          exact applyWrites_get_some w _ k v2 hl
      | none =>
          simp only [lastWrite, hl] at h
          by_cases hk : k1 = k
          · simp only [hk, if_true, Option.some.injEq] at h
            subst h
            subst hk
            rw [applyWrites_get_none w _ k1 hl, GoMap.get_set_self]
          · simp [hk] at h

theorem lastWrite_mem :
    ∀ (w : List (String × FunctionDetails)) (k : String) (v : FunctionDetails),
      lastWrite w k = some v → (k, v) ∈ w
  | [], _, _, h => by simp [lastWrite] at h
  | (k1, v1) :: w, k, v, h => by
      cases hl : lastWrite w k with
      | some v2 =>
          simp only [lastWrite, hl, Option.some.injEq] at h
          subst h
          exact List.mem_cons_of_mem _ (lastWrite_mem w k v2 hl)
      | none =>
          simp only [lastWrite, hl] at h
          by_cases hk : k1 = k
          · simp only [hk, if_true, Option.some.injEq] at h
            subst h
            subst hk
            exact List.mem_cons_self _ _
          · simp [hk] at h

theorem lastWrite_none_of_not_key :
    ∀ (w : List (String × FunctionDetails)) (k : String),
      (∀ kv ∈ w, kv.1 ≠ k) → lastWrite w k = none
  | [], _, _ => rfl
  | (k1, v1) :: w, k, h => by
      have h1 : k1 ≠ k := h (k1, v1) (List.mem_cons_self _ _)
      have h2 := lastWrite_none_of_not_key w k (fun kv hkv => h kv (List.mem_cons_of_mem _ hkv))
      simp [lastWrite, h2, h1]

theorem applyWrites_keys_mono :
    ∀ (w : List (String × FunctionDetails)) (T : GoMap FunctionDetails) (k : String),
      k ∈ T.keys → k ∈ (applyWrites w T).keys
  | [], _, _, h => h
  | (k1, v1) :: w, T, k, h => by
      rw [applyWrites_cons]
      exact applyWrites_keys_mono w _ k ((GoMap.mem_keys_set _ _ _ _).2 (Or.inr h))

theorem applyWrites_keys_written :
    ∀ (w : List (String × FunctionDetails)) (T : GoMap FunctionDetails),
      ∀ kv ∈ w, kv.1 ∈ (applyWrites w T).keys
  | [], _, kv, h => by simp at h
  | (k1, v1) :: w, T, kv, h => by
      rw [applyWrites_cons]
      rcases List.mem_cons.1 h with rfl | h
      · exact applyWrites_keys_mono w _ _ ((GoMap.mem_keys_set _ _ _ _).2 (Or.inl rfl))
      · exact applyWrites_keys_written w _ kv h

theorem applyWrites_keys_eq :
    ∀ (w : List (String × FunctionDetails)) (T : GoMap FunctionDetails),
      (∀ kv ∈ w, kv.1 ∈ T.keys) → (applyWrites w T).keys = T.keys
  | [], _, _ => rfl
  | (k1, v1) :: w, T, h => by
      have h1 : k1 ∈ T.keys := h (k1, v1) (List.mem_cons_self _ _)
      have hk : (T.set k1 v1).keys = T.keys := by
        rw [GoMap.keys_set]
        simp [h1]
      rw [applyWrites_cons, applyWrites_keys_eq w (T.set k1 v1)
        (fun kv hkv => by rw [hk]; exact h kv (List.mem_cons_of_mem _ hkv)), hk]

theorem applyWrites_nodup :
    ∀ (w : List (String × FunctionDetails)) (T : GoMap FunctionDetails),
      T.keys.Nodup → (applyWrites w T).keys.Nodup
  | [], _, h => h
  | (k1, v1) :: w, T, h => by
      rw [applyWrites_cons]
      exact applyWrites_nodup w _ (GoMap.nodup_keys_set k1 v1 T h)

theorem GoMap.ext_of_keys {V : Type} :
    ∀ (m1 m2 : GoMap V), GoMap.keys m1 = GoMap.keys m2 → (GoMap.keys m1).Nodup →
      (∀ k, GoMap.get m1 k = GoMap.get m2 k) → m1 = m2
  | [], [], _, _, _ => rfl
  | [], _ :: _, h, _, _ => by simp [GoMap.keys] at h
  | _ :: _, [], h, _, _ => by simp [GoMap.keys] at h
  | (k1, v1) :: m1, (k2, v2) :: m2, hk, hnd, hg => by
      have hk2 : k1 = k2 ∧ GoMap.keys m1 = GoMap.keys m2 := by
        simpa [GoMap.keys] using hk
      obtain ⟨hk12, hkeys⟩ := hk2
      subst hk12
      have hnd2 : k1 ∉ GoMap.keys m1 ∧ (GoMap.keys m1).Nodup := by
        simpa [GoMap.keys] using hnd
      have hv : v1 = v2 := by
        have := hg k1
        simpa [GoMap.get] using this
      subst hv
      have htail : ∀ k, GoMap.get m1 k = GoMap.get m2 k := by
        intro k
        by_cases hkk : k1 = k
        · subst hkk
          rw [(GoMap.get_eq_none_iff k1 m1).2 hnd2.1,
            (GoMap.get_eq_none_iff k1 m2).2 (hkeys ▸ hnd2.1)]
        · have := hg k
          simpa [GoMap.get, hkk] using this
      rw [GoMap.ext_of_keys m1 m2 hkeys hnd2.2 htail]

theorem recordNamed_name (L : Lib) (k : String) (d : Decl) (r : FunctionDetails)
    (h : recordNamed L k d = some r) : r.Name = k := by
  cases d with
  | genDecl g => simp [recordNamed] at h
  | funcDecl doc recv name typ body =>
      cases body with
      | none => simp [recordNamed] at h
      | some b =>
          by_cases hk : name.Name = k
          · simp only [recordNamed, hk, if_true, Option.some.injEq] at h
            rw [← h, ← hk]
            rfl
          · simp [recordNamed, hk] at h

theorem lastDeclRecord_name (L : Lib) (k : String) (ds : List Decl) (r : FunctionDetails)
    (h : lastDeclRecord L k ds = some r) : r.Name = k := by
  unfold lastDeclRecord at h
  obtain ⟨d, _, hd⟩ := List.exists_of_findSome?_eq_some h
  exact recordNamed_name L k d r hd

theorem perFile_name (L : Lib) (file : File) (fns : GoMap FunctionDetails)
    (hw : Walk (Visit L) (.file file) [] = .ok fns) (n : String) (r : FunctionDetails)
    (h : fns.get n = some r) : r.Name = n := by
  have hinv := (perFile_invariant_walk L file fns hw).2.2 n
  rw [h] at hinv
  exact lastDeclRecord_name L n file.Decls r hinv.symm

/-! ## The callback -/

theorem walkFn_enum_error (L : Lib) (e : DirEntry) (T : GoMap FunctionDetails) (fs : FileSet)
    (x : String) (herr : e.err = some x) : walkFn L e (T, fs) = .ok ((T, fs), some x) := by
  simp [walkFn, herr, pure, Except.pure]

theorem walkFn_parsed (L : Lib) (e : DirEntry) (src : String) (file : File)
    (T : GoMap FunctionDetails) (fs : FileSet) (herr : e.err = none) (hdir : e.isDir = false)
    (hgo : HasSuffix e.path ".go" = true) (hread : e.content = .ok src)
    (hparse : L.parseFile fs e.path src = .ok file) :
    walkFn L e (T, fs) =
      (Walk (Visit L) (.file file) []).map
        (fun fns => ((addFunctions file.Name.Name e.path fns T,
          fs.AddFile src.utf8ByteSize), none)) := by
  unfold walkFn
  simp only [herr, hdir, hgo, hread, hparse]
  cases Walk (Visit L) (.file file) [] <;> rfl

theorem walkFn_eq_writes (L : Lib) (e : DirEntry) (T : GoMap FunctionDetails) (fs : FileSet)
    (herr : e.err = none) :
    walkFn L e (T, fs) =
      (entryWrites L fs e).map (fun w => ((applyWrites w T, e.advance fs), none)) := by
  unfold walkFn entryWrites DirEntry.parsed DirEntry.advance
  simp only [herr]
  by_cases hdir : e.isDir = true
  · simp [hdir, pure, Except.pure, Except.map, applyWrites]
  · by_cases hgo : HasSuffix e.path ".go" = true
    · cases hcont : e.content with
      | error x => simp [hdir, hgo, pure, Except.pure, Except.map, applyWrites]
      | ok src =>
          cases hp : L.parseFile fs e.path src with
          | error x => simp [hdir, hgo, hp, pure, Except.pure, Except.map, applyWrites]
          | ok file =>
              cases hW : Walk (Visit L) (.file file) [] with
              | error p =>
                  simp [hdir, hgo, hp, hW, Except.map, bind, Except.bind]
              | ok fns =>
                  simp [hdir, hgo, hp, hW, Except.map, applyWrites_map, bind, Except.bind,
                    pure, Except.pure]
    · simp [hdir, hgo, pure, Except.pure, Except.map, applyWrites]

/-- C5: when `ParseDir` processes a file that is read and parsed, with package name `p` and
path `f`, and the analyzer leaves the per-file map `fns`, the table afterwards maps the key
`p.n (f)` to `r` for every name `n` of `fns` with record `r`, every key that is no such key
keeps the value it had, and the order in which the per-file map is iterated changes
nothing. -/
theorem C5_file_functions_enter_table (L : Lib) (e : DirEntry) (src : String) (file : File)
    (fns T : GoMap FunctionDetails) (fset : FileSet) (herr : e.err = none)
    (hdir : e.isDir = false) (hgo : HasSuffix e.path ".go" = true)
    (hread : e.content = .ok src) (hparse : L.parseFile fset e.path src = .ok file)
    (hwalk : Walk (Visit L) (.file file) [] = .ok fns) :
    ∃ T1, walkFn L e (T, fset) = .ok ((T1, fset.AddFile src.utf8ByteSize), none)
      ∧ (∀ n r, fns.get n = some r →
          T1.get (file.Name.Name ++ "." ++ n ++ " (" ++ e.path ++ ")") = some r)
      ∧ (∀ k, (∀ n ∈ fns.keys, k ≠ file.Name.Name ++ "." ++ n ++ " (" ++ e.path ++ ")") →
          T1.get k = T.get k)
      ∧ (∀ fns1 : GoMap FunctionDetails, fns1.Perm fns →
          ∀ k, (addFunctions file.Name.Name e.path fns1 T).get k = T1.get k) := by
  have hnd : fns.keys.Nodup := ((perFile_invariant_walk L file fns hwalk)).1
  refine ⟨addFunctions file.Name.Name e.path fns T, ?_, ?_, ?_, ?_⟩
  · rw [walkFn_parsed L e src file T fset herr hdir hgo hread hparse, hwalk]
    rfl
  · intro n r hg
    exact addFunctions_get_key _ _ fns T n r hnd hg
  · intro k hk
    exact addFunctions_get_other _ _ fns T k hk
  · intro fns1 hperm k
    exact addFunctions_order _ _ fns fns1 T hnd hperm k

theorem C5_file_functions_enter_table_witness :
    entryFoo.err = none ∧ entryFoo.isDir = false ∧ HasSuffix entryFoo.path ".go" = true
      ∧ entryFoo.content = .ok srcFoo
      ∧ fooLib.parseFile NewFileSet entryFoo.path srcFoo = .ok fileFoo
      ∧ Walk (Visit fooLib) (.file fileFoo) [] = .ok fnsFoo
      ∧ ∃ T1, walkFn fooLib entryFoo ([], NewFileSet) =
            .ok ((T1, NewFileSet.AddFile srcFoo.utf8ByteSize), none)
        ∧ (∀ n r, fnsFoo.get n = some r →
            T1.get (fileFoo.Name.Name ++ "." ++ n ++ " (" ++ entryFoo.path ++ ")") = some r)
        ∧ (∀ k, (∀ n ∈ fnsFoo.keys,
              k ≠ fileFoo.Name.Name ++ "." ++ n ++ " (" ++ entryFoo.path ++ ")") →
            T1.get k = GoMap.get [] k)
        ∧ (∀ fns1 : GoMap FunctionDetails, fns1.Perm fnsFoo →
            ∀ k, (addFunctions fileFoo.Name.Name entryFoo.path fns1 []).get k = T1.get k) :=
  have hwalk : Walk (Visit fooLib) (.file fileFoo) [] = .ok fnsFoo := by
    rw [walkFile_Visit]
    rfl
  ⟨rfl, rfl, by decide, rfl, by simp [fooLib], hwalk,
    C5_file_functions_enter_table fooLib entryFoo srcFoo fileFoo fnsFoo [] NewFileSet rfl rfl
      (by decide) rfl (by simp [fooLib]) hwalk⟩

/-! ## The walk as a list of writes -/

theorem ParseDirFrom_cons (L : Lib) (fs : FileSet) (e : DirEntry) (rest : List DirEntry)
    (T : GoMap FunctionDetails) :
    ParseDirFrom L fs (e :: rest) T =
      match walkFn L e (T, fs) with
      | .error p => .error p
      | .ok (st, some err) => .ok (st.1, some err)
      | .ok (st, none) => ParseDirFrom L st.2 rest st.1 := by
  unfold ParseDirFrom
  rw [filepathWalk]
  cases h : walkFn L e (T, fs) with
  | error p => rfl
  | ok r =>
      obtain ⟨st, err⟩ := r
      cases err <;> rfl

theorem ParseDirFrom_eq_writes (L : Lib) :
    ∀ (es : List DirEntry) (fs : FileSet) (T : GoMap FunctionDetails),
      ParseDirFrom L fs es T = (walkWrites L fs es).map (fun we => (applyWrites we.1 T, we.2))
  | [], fs, T => rfl
  | e :: rest, fs, T => by
      rw [ParseDirFrom_cons, walkWrites]
      cases herr : e.err with
      | some x => rw [walkFn_enum_error L e T fs x herr]; rfl
      | none =>
          rw [walkFn_eq_writes L e T fs herr]
          cases hw : entryWrites L fs e with
          | error p => rfl
          | ok w =>
              simp only [Except.map]
              rw [ParseDirFrom_eq_writes L rest (e.advance fs) (applyWrites w T)]
              cases hr : walkWrites L (e.advance fs) rest with
              | error p => rfl
              | ok r =>
                  obtain ⟨w1, err⟩ := r
                  simp [Except.map, applyWrites_append]

theorem ParseDir_eq_writes (L : Lib) (es : List DirEntry) (T : GoMap FunctionDetails) :
    ParseDir L es T =
      (walkWrites L NewFileSet es).map (fun we => (applyWrites we.1 T, we.2)) :=
  ParseDirFrom_eq_writes L es NewFileSet T

theorem ParseDir_writes_of_ok (L : Lib) (es : List DirEntry) (T : GoMap FunctionDetails)
    (r : GoMap FunctionDetails × Option String) (h : ParseDir L es T = .ok r) :
    ∃ w, walkWrites L NewFileSet es = .ok (w, r.2) ∧ r.1 = applyWrites w T := by
  rw [ParseDir_eq_writes] at h
  cases hw : walkWrites L NewFileSet es with
  | error p => simp [hw, Except.map] at h
  | ok we =>
      obtain ⟨w, err⟩ := we
      simp only [hw, Except.map, Except.ok.injEq] at h
      exact ⟨w, by rw [← h], by rw [← h]⟩

theorem processedFrom_cons (fs : FileSet) (e : DirEntry) (rest : List DirEntry)
    (herr : e.err = none) :
    processedFrom fs (e :: rest) = (fs, e) :: processedFrom (e.advance fs) rest := by
  simp [processedFrom, herr]

theorem walkWrites_error (L : Lib) :
    ∀ (es : List DirEntry) (fs : FileSet) (r : List (String × FunctionDetails) × Option String),
      walkWrites L fs es = .ok r → r.2 = firstEnumError es
  | [], fs, r, h => by
      simp only [walkWrites, Except.ok.injEq] at h
      rw [← h]; rfl
  | e :: rest, fs, r, h => by
      rw [walkWrites] at h
      cases herr : e.err with
      | some x =>
          simp only [herr, Except.ok.injEq] at h
          rw [← h]
          simp [firstEnumError, List.findSome?_cons, herr]
      | none =>
          simp only [herr] at h
          cases hw : entryWrites L fs e with
          | error p => simp [hw] at h
          | ok w =>
              simp only [hw] at h
              cases hr : walkWrites L (e.advance fs) rest with
              | error p => simp [hr] at h
              | ok r1 =>
                  obtain ⟨w1, err⟩ := r1
                  simp only [hr, Except.ok.injEq] at h
                  rw [← h]
                  have ih := walkWrites_error L rest (e.advance fs) (w1, err) hr
                  simp only [firstEnumError, List.findSome?_cons, herr] at ih ⊢
                  exact ih

theorem entryWrites_total (L : Lib) (fs : FileSet) (e : DirEntry)
    (hb : ∀ file, e.parsed L fs = some file → ∀ d ∈ file.Decls, d.hasBody = true) :
    ∃ w, entryWrites L fs e = .ok w := by
  unfold entryWrites
  cases hp : e.parsed L fs with
  | none => exact ⟨[], rfl⟩
  | some file =>
      obtain ⟨fns, hfns⟩ : ∃ m, Walk (Visit L) (.file file) [] = .ok m := by
        rw [walkFile_Visit]
        exact perFile_total L file.Decls [] (hb file hp)
      exact ⟨_, by simp only [hfns]; rfl⟩

theorem walkWrites_total (L : Lib) :
    ∀ (es : List DirEntry) (fs : FileSet),
      (∀ p ∈ processedFrom fs es, ∀ file, p.2.parsed L p.1 = some file →
        ∀ d ∈ file.Decls, d.hasBody = true) →
      ∃ w, walkWrites L fs es = .ok (w, firstEnumError es)
  | [], _, _ => ⟨[], rfl⟩
  | e :: rest, fs, hb => by
      rw [walkWrites]
      cases herr : e.err with
      | some x => exact ⟨[], by simp [firstEnumError, List.findSome?_cons, herr]⟩
      | none =>
          rw [processedFrom_cons fs e rest herr] at hb
          obtain ⟨w, hw⟩ := entryWrites_total L fs e (hb (fs, e) (List.mem_cons_self _ _))
          obtain ⟨w1, hw1⟩ := walkWrites_total L rest (e.advance fs)
            (fun x hx => hb x (List.mem_cons_of_mem _ hx))
          refine ⟨w ++ w1, ?_⟩
          simp only [hw, hw1]
          simp [firstEnumError, List.findSome?_cons, herr]

theorem entryWrites_mem (L : Lib) (fs : FileSet) (e : DirEntry)
    (w : List (String × FunctionDetails)) (h : entryWrites L fs e = .ok w) :
    ∀ kv ∈ w, ∃ file fns n, e.parsed L fs = some file
      ∧ Walk (Visit L) (.file file) [] = .ok fns
      ∧ fns.get n = some kv.2
      ∧ kv.1 = file.Name.Name ++ "." ++ n ++ " (" ++ e.path ++ ")" := by
  intro kv hkv
  unfold entryWrites at h
  cases hp : e.parsed L fs with
  | none =>
      simp only [hp, Except.ok.injEq] at h
      rw [← h] at hkv
      simp at hkv
  | some file =>
      simp only [hp] at h
      cases hW : Walk (Visit L) (.file file) [] with
      | error p => simp [hW, Except.map] at h
      | ok fns =>
          simp only [hW, Except.map, Except.ok.injEq] at h
          rw [← h] at hkv
          obtain ⟨nd, hnd, hEq⟩ := List.mem_map.1 hkv
          have hnodup := (perFile_invariant_walk L file fns hW).1
          have hget : fns.get nd.1 = some nd.2 :=
            (GoMap.get_eq_some_iff nd.1 nd.2 fns hnodup).2 hnd
          refine ⟨file, fns, nd.1, rfl, hW, ?_, ?_⟩
          · rw [← hEq]; exact hget
          · rw [← hEq]; rfl

theorem entryWrites_complete (L : Lib) (fs : FileSet) (e : DirEntry)
    (w : List (String × FunctionDetails)) (h : entryWrites L fs e = .ok w) (file : File)
    (hp : e.parsed L fs = some file) :
    ∃ fns, Walk (Visit L) (.file file) [] = .ok fns ∧
      ∀ n ∈ fns.keys, ∃ kv ∈ w, kv.1 = fullName file.Name.Name n e.path := by
  unfold entryWrites at h
  simp only [hp] at h
  cases hW : Walk (Visit L) (.file file) [] with
  | error p => simp [hW, Except.map] at h
  | ok fns =>
      simp only [hW, Except.map, Except.ok.injEq] at h
      refine ⟨fns, rfl, fun n hn => ?_⟩
      obtain ⟨nd, hnd, hEq⟩ := List.mem_map.1 hn
      refine ⟨(fullName file.Name.Name nd.1 e.path, nd.2), ?_, by rw [← hEq]⟩
      rw [← h]
      exact List.mem_map.2 ⟨nd, hnd, rfl⟩

theorem walkWrites_mem (L : Lib) :
    ∀ (es : List DirEntry) (fs : FileSet) (w : List (String × FunctionDetails))
      (err : Option String),
      walkWrites L fs es = .ok (w, err) → ∀ kv ∈ w, WriteOf L fs es kv
  | [], fs, w, err, h, kv, hkv => by
      simp only [walkWrites, Except.ok.injEq, Prod.mk.injEq] at h
      rw [← h.1] at hkv
      simp at hkv
  | e :: rest, fs, w, err, h, kv, hkv => by
      rw [walkWrites] at h
      cases herr : e.err with
      | some x =>
          simp only [herr, Except.ok.injEq, Prod.mk.injEq] at h
          rw [← h.1] at hkv
          simp at hkv
      | none =>
          have hproc := processedFrom_cons fs e rest herr
          simp only [herr] at h
          cases hw : entryWrites L fs e with
          | error p => simp [hw] at h
          | ok w0 =>
              simp only [hw] at h
              cases hr : walkWrites L (e.advance fs) rest with
              | error p => simp [hr] at h
              | ok r1 =>
                  obtain ⟨w1, err1⟩ := r1
                  simp only [hr, Except.ok.injEq, Prod.mk.injEq] at h
                  rw [← h.1] at hkv
                  rcases List.mem_append.1 hkv with hm | hm
                  · obtain ⟨file, fns, n, h1, h2, h3, h4⟩ := entryWrites_mem L fs e w0 hw kv hm
                    exact ⟨(fs, e), by rw [hproc]; exact List.mem_cons_self _ _,
                      file, fns, n, h1, h2, h3, h4⟩
                  · obtain ⟨p1, hp1, rest1⟩ :=
                      walkWrites_mem L rest (e.advance fs) w1 err1 hr kv hm
                    exact ⟨p1, by rw [hproc]; exact List.mem_cons_of_mem _ hp1, rest1⟩

theorem walkWrites_complete (L : Lib) :
    ∀ (es : List DirEntry) (fs : FileSet) (w : List (String × FunctionDetails))
      (err : Option String),
      walkWrites L fs es = .ok (w, err) →
        ∀ p ∈ processedFrom fs es, ∀ file, p.2.parsed L p.1 = some file →
          ∃ fns, Walk (Visit L) (.file file) [] = .ok fns ∧
            ∀ n ∈ fns.keys, ∃ kv ∈ w, kv.1 = fullName file.Name.Name n p.2.path
  | [], fs, w, err, _, p, hp, _, _ => by simp [processedFrom] at hp
  | e :: rest, fs, w, err, h, p, hp, file, hfile => by
      rw [walkWrites] at h
      cases herr : e.err with
      | some x => simp [processedFrom, herr] at hp
      | none =>
          rw [processedFrom_cons fs e rest herr] at hp
          simp only [herr] at h
          cases hw : entryWrites L fs e with
          | error p => simp [hw] at h
          | ok w0 =>
              simp only [hw] at h
              cases hr : walkWrites L (e.advance fs) rest with
              | error p => simp [hr] at h
              | ok r1 =>
                  obtain ⟨w1, err1⟩ := r1
                  simp only [hr, Except.ok.injEq, Prod.mk.injEq] at h
                  rcases List.mem_cons.1 hp with heq | hmem
                  · subst heq
                    obtain ⟨fns, hfns, hall⟩ := entryWrites_complete L fs e w0 hw file hfile
                    refine ⟨fns, hfns, fun n hn => ?_⟩
                    obtain ⟨kv, hkv, hk⟩ := hall n hn
                    exact ⟨kv, by rw [← h.1]; exact List.mem_append_left _ hkv, hk⟩
                  · obtain ⟨fns, hfns, hall⟩ :=
                      walkWrites_complete L rest (e.advance fs) w1 err1 hr p hmem file hfile
                    refine ⟨fns, hfns, fun n hn => ?_⟩
                    obtain ⟨kv, hkv, hk⟩ := hall n hn
                    exact ⟨kv, by rw [← h.1]; exact List.mem_append_right _ hkv, hk⟩

theorem writeOf_key_named (L : Lib) (fs : FileSet) (es : List DirEntry)
    (kv : String × FunctionDetails) (h : WriteOf L fs es kv) :
    ∃ p ∈ processedFrom fs es, ∃ file, p.2.parsed L p.1 = some file
      ∧ kv.1 = file.Name.Name ++ "." ++ kv.2.Name ++ " (" ++ p.2.path ++ ")" := by
  obtain ⟨p, hp, file, fns, n, hpar, hW, hg, hk⟩ := h
  have hn := perFile_name L file fns hW n kv.2 hg
  exact ⟨p, hp, file, hpar, by rw [hk, hn]⟩

/-! ## Files whose read or parse fails -/

theorem walkWrites_cons_skip (L : Lib) (fs : FileSet) (e : DirEntry) (rest : List DirEntry)
    (herr : e.err = none) (hw : entryWrites L fs e = .ok []) :
    walkWrites L fs (e :: rest) = walkWrites L (e.advance fs) rest := by
  rw [walkWrites]
  simp only [herr, hw]
  cases walkWrites L (e.advance fs) rest with
  | error p => rfl
  | ok r => simp

theorem walkWrites_cons_congr (L : Lib) (fs : FileSet) (e : DirEntry)
    (rest rest1 : List DirEntry)
    (h : walkWrites L (e.advance fs) rest1 = walkWrites L (e.advance fs) rest) :
    walkWrites L fs (e :: rest1) = walkWrites L fs (e :: rest) := by
  rw [walkWrites, walkWrites, h]

theorem fails_spec (L : Lib) (fs : FileSet) (e : DirEntry) (h : e.fails L fs = true) :
    e.err = none ∧ entryWrites L fs e = .ok [] := by
  unfold DirEntry.fails at h
  simp only [Bool.and_eq_true, Option.isNone_iff_eq_none, Bool.not_eq_true'] at h
  obtain ⟨⟨⟨herr, hdir⟩, hgo⟩, hc⟩ := h
  refine ⟨herr, ?_⟩
  unfold entryWrites DirEntry.parsed
  simp only [herr, hdir, hgo]
  cases hcont : e.content with
  | error x => simp
  | ok src =>
      simp only [hcont] at hc
      cases hp : L.parseFile fs e.path src with
      | error x => simp [hp]
      | ok file => simp [hp] at hc

theorem readFails_spec (L : Lib) (fs : FileSet) (e : DirEntry) (h : e.readFails = true) :
    e.err = none ∧ entryWrites L fs e = .ok [] ∧ e.advance fs = fs := by
  unfold DirEntry.readFails at h
  simp only [Bool.and_eq_true, Option.isNone_iff_eq_none, Bool.not_eq_true'] at h
  obtain ⟨⟨⟨herr, hdir⟩, hgo⟩, hc⟩ := h
  cases hcont : e.content with
  | ok src => simp [hcont] at hc
  | error x =>
      refine ⟨herr, ?_, ?_⟩
      · unfold entryWrites DirEntry.parsed
        simp [herr, hdir, hgo, hcont]
      · unfold DirEntry.advance
        simp [herr, hdir, hgo, hcont]

theorem walkWrites_skip_readFails (L : Lib) :
    ∀ (es : List DirEntry) (fs : FileSet),
      walkWrites L fs (es.filter (fun e => !e.readFails)) = walkWrites L fs es
  | [], _ => rfl
  | e :: rest, fs => by
      by_cases hf : e.readFails = true
      · obtain ⟨herr, hw, hadv⟩ := readFails_spec L fs e hf
        rw [List.filter_cons_of_neg (by simp [hf]), walkWrites_cons_skip L fs e rest herr hw,
          hadv]
        exact walkWrites_skip_readFails L rest fs
      · rw [List.filter_cons_of_pos (by simp [hf])]
        exact walkWrites_cons_congr L fs e rest _
          (walkWrites_skip_readFails L rest (e.advance fs))

theorem walkWrites_eq_pairs (L : Lib) :
    ∀ (es : List DirEntry) (fs : FileSet),
      walkWrites L fs es =
        (writesOfPairs L (processedFrom fs es)).map (fun w => (w, firstEnumError es))
  | [], _ => rfl
  | e :: rest, fs => by
      rw [walkWrites]
      cases herr : e.err with
      | some x => simp [processedFrom, herr, writesOfPairs, Except.map, firstEnumError]
      | none =>
          rw [processedFrom_cons fs e rest herr, writesOfPairs,
            walkWrites_eq_pairs L rest (e.advance fs)]
          have hfe : firstEnumError (e :: rest) = firstEnumError rest := by
            simp [firstEnumError, List.findSome?_cons, herr]
          rw [hfe]
          cases entryWrites L fs e with
          | error p => rfl
          | ok w =>
              cases writesOfPairs L (processedFrom (e.advance fs) rest) with
              | error p => rfl
              | ok w1 => rfl

theorem writesOfPairs_skip_fails (L : Lib) :
    ∀ (ps : List (FileSet × DirEntry)),
      writesOfPairs L (ps.filter (fun p => !p.2.fails L p.1)) = writesOfPairs L ps
  | [] => rfl
  | p :: rest => by
      by_cases hf : p.2.fails L p.1 = true
      · rw [List.filter_cons_of_neg (by simp [hf]), writesOfPairs_skip_fails L rest,
          writesOfPairs, (fails_spec L p.1 p.2 hf).2]
        cases writesOfPairs L rest with
        | error x => rfl
        | ok w1 => simp
      · rw [List.filter_cons_of_pos (by simp [hf]), writesOfPairs, writesOfPairs,
          writesOfPairs_skip_fails L rest]

theorem processedFrom_of_no_error :
    ∀ (es : List DirEntry) (fs : FileSet), (∀ e ∈ es, e.err = none) →
      (processedFrom fs es).map Prod.snd = es
  | [], _, _ => rfl
  | e :: rest, fs, h => by
      rw [processedFrom_cons fs e rest (h e (List.mem_cons_self _ _)), List.map_cons,
        processedFrom_of_no_error rest _ (fun x hx => h x (List.mem_cons_of_mem _ hx))]

theorem walkFn_parse_fails (L : Lib) (e : DirEntry) (src x : String)
    (T : GoMap FunctionDetails) (fs : FileSet) (herr : e.err = none) (hdir : e.isDir = false)
    (hgo : HasSuffix e.path ".go" = true) (hread : e.content = .ok src)
    (hparse : L.parseFile fs e.path src = .error x) :
    walkFn L e (T, fs) = .ok ((T, fs.AddFile src.utf8ByteSize), none) := by
  unfold walkFn
  simp only [herr, hdir, hgo, hread, hparse]
  rfl

theorem firstEnumError_none (es : List DirEntry) (h : ∀ e ∈ es, e.err = none) :
    firstEnumError es = none := by
  unfold firstEnumError
  rw [List.findSome?_eq_none_iff]
  exact h

theorem ParseDir_posLib_foo :
    ParseDir posLib [entryFoo] [] = .ok (tableFooAt 1, none) := by
  unfold ParseDir
  rw [ParseDirFrom_cons, walkFn_parsed posLib entryFoo srcFoo (fileFooAt 1) [] NewFileSet
    rfl rfl (by decide) rfl (by simp [posLib, NewFileSet]), walkFile_Visit]
  rfl

theorem ParseDir_posLib_bad_foo :
    ParseDir posLib [entryBad, entryFoo] [] = .ok (tableFooAt 9, none) := by
  unfold ParseDir
  rw [ParseDirFrom_cons, walkFn_parse_fails posLib entryBad "package" "syntax error" []
    NewFileSet rfl rfl (by decide) rfl (by simp [posLib, srcFoo])]
  simp only []
  rw [ParseDirFrom_cons, walkFn_parsed posLib entryFoo srcFoo (fileFooAt 9) [] _
    rfl rfl (by decide) rfl (by
      have h : (NewFileSet.AddFile "package".utf8ByteSize).base = 9 := by decide
      simp [posLib, h]), walkFile_Visit]
  rfl

theorem tableFooAt_ne : tableFooAt 1 ≠ tableFooAt 9 := by
  intro h
  have hb : bodyAt 1 = bodyAt 9 := by
    have h2 := congrArg (fun t => (GoMap.get t "p.Foo (a/foo.go)").bind (fun d => d.Body)) h
    simpa [tableFooAt, GoMap.get, funcRecord] using h2
  simp [bodyAt] at hb

/-- C7 (as stated) fails: in the walk over `a/bad.go`, whose parse fails, and `a/foo.go`,
with a parser that gives a tree the positions of the file set, the file `a/bad.go` has
taken its positions in the shared file set when `a/foo.go` is parsed; the table differs
from the table of the walk over `a/foo.go` alone in the positions of the stored body. -/
theorem C7_table_differs_without_failing_file_counterexample :
    (∀ e ∈ [entryBad, entryFoo], e.err = none)
      ∧ entryBad.fails posLib NewFileSet = true
      ∧ [entryBad, entryFoo].filter (fun e => !e.fails posLib NewFileSet) = [entryFoo]
      ∧ ParseDir posLib [entryFoo] [] = .ok (tableFooAt 1, none)
      ∧ ParseDir posLib [entryBad, entryFoo] [] = .ok (tableFooAt 9, none)
      ∧ ParseDir posLib ([entryBad, entryFoo].filter (fun e => !e.fails posLib NewFileSet)) []
          ≠ ParseDir posLib [entryBad, entryFoo] [] := by
  have henum : ∀ e ∈ [entryBad, entryFoo], e.err = none := by
    intro e he
    simp only [List.mem_cons, List.mem_singleton, List.not_mem_nil, or_false] at he
    rcases he with rfl | rfl <;> rfl
  have hbad : entryBad.fails posLib NewFileSet = true := by decide
  have hfoo : entryFoo.fails posLib NewFileSet = false := by decide
  have hfilter : [entryBad, entryFoo].filter (fun e => !e.fails posLib NewFileSet) =
      [entryFoo] := by
    simp [List.filter, hbad, hfoo]
  refine ⟨henum, by decide, hfilter, ParseDir_posLib_foo, ParseDir_posLib_bad_foo, ?_⟩
  rw [hfilter, ParseDir_posLib_foo, ParseDir_posLib_bad_foo]
  intro h
  simp only [Except.ok.injEq, Prod.mk.injEq, and_true] at h
  exact tableFooAt_ne h

/-- C7 (amended): in a walk whose enumeration succeeds, a file whose read or parse fails is
skipped without aborting: it leaves the table as it is and the walk goes on with the next
entry, from the file set in which a file that was read has taken its positions.  So the
table of a walk equals the table of the walk without the files whose read fails, and it
is the table that the files whose read and parse succeed give alone, each parsed at the
file set at which the walk meets it.  When `ParseDir` returns it returns no error and the
table holds a key for every function of every well-formed file; it returns when the
function declarations of the well-formed files have bodies. -/
theorem C7_failing_files_are_skipped (L : Lib) (es : List DirEntry)
    (T : GoMap FunctionDetails) (henum : ∀ e ∈ es, e.err = none) :
    (∀ (fs : FileSet) (e : DirEntry) (rest : List DirEntry) (T0 : GoMap FunctionDetails),
        e.fails L fs = true →
          walkFn L e (T0, fs) = .ok ((T0, e.advance fs), none)
            ∧ ParseDirFrom L fs (e :: rest) T0 = ParseDirFrom L (e.advance fs) rest T0)
      ∧ ParseDir L (es.filter (fun e => !e.readFails)) T = ParseDir L es T
      ∧ ParseDir L es T =
          (writesOfPairs L ((processed es).filter (fun p => !p.2.fails L p.1))).map
            (fun w => (applyWrites w T, none))
      ∧ (∀ r, ParseDir L es T = .ok r →
          r.2 = none ∧
            ∀ p ∈ processed es, ∀ file, p.2.parsed L p.1 = some file →
              ∃ fns, Walk (Visit L) (.file file) [] = .ok fns ∧
                ∀ n ∈ fns.keys,
                  file.Name.Name ++ "." ++ n ++ " (" ++ p.2.path ++ ")" ∈ r.1.keys)
      ∧ ((processed es).map Prod.snd = es)
      ∧ ((∀ p ∈ processed es, ∀ file, p.2.parsed L p.1 = some file →
            ∀ d ∈ file.Decls, d.hasBody = true) →
          ∃ T1, ParseDir L es T = .ok (T1, none)) := by
  refine ⟨?_, ?_, ?_, ?_, processedFrom_of_no_error es NewFileSet henum, ?_⟩
  · intro fs e rest T0 hf
    obtain ⟨herr, hw⟩ := fails_spec L fs e hf
    refine ⟨?_, ?_⟩
    · rw [walkFn_eq_writes L e T0 fs herr, hw]
      rfl
    · rw [ParseDirFrom_eq_writes, ParseDirFrom_eq_writes,
        walkWrites_cons_skip L fs e rest herr hw]
  · rw [ParseDir_eq_writes, ParseDir_eq_writes, walkWrites_skip_readFails]
  · rw [ParseDir_eq_writes, walkWrites_eq_pairs, writesOfPairs_skip_fails,
      firstEnumError_none es henum]
    unfold processed
    cases writesOfPairs L (processedFrom NewFileSet es) <;> rfl
  · intro r hr
    obtain ⟨w, hw, hT⟩ := ParseDir_writes_of_ok L es T r hr
    refine ⟨?_, ?_⟩
    · have he := walkWrites_error L es NewFileSet (w, r.2) hw
      simp only at he
      rw [he, firstEnumError_none es henum]
    · intro p hp file hfile
      obtain ⟨fns, hfns, hall⟩ := walkWrites_complete L es NewFileSet w r.2 hw p hp file hfile
      refine ⟨fns, hfns, fun n hn => ?_⟩
      obtain ⟨kv, hkv, hk⟩ := hall n hn
      have hmem := applyWrites_keys_written w T kv hkv
      rw [hT]
      have hk2 : kv.1 = file.Name.Name ++ "." ++ n ++ " (" ++ p.2.path ++ ")" := hk
      rw [← hk2]
      exact hmem
  · intro hb
    obtain ⟨w, hw⟩ := walkWrites_total L es NewFileSet hb
    refine ⟨applyWrites w T, ?_⟩
    rw [ParseDir_eq_writes, hw, firstEnumError_none es henum]
    rfl

theorem C7_failing_files_are_skipped_witness :
    (∀ e ∈ [entryBad, entryFoo], e.err = none)
      ∧ ParseDir fooLib ([entryBad, entryFoo].filter (fun e => !e.readFails)) [] =
          ParseDir fooLib [entryBad, entryFoo] []
      ∧ ParseDir fooLib [entryBad, entryFoo] [] =
          (writesOfPairs fooLib
            ((processed [entryBad, entryFoo]).filter (fun p => !p.2.fails fooLib p.1))).map
            (fun w => (applyWrites w [], none))
      ∧ ParseDir fooLib [entryBad, entryFoo] [] = .ok (tableFoo, none) :=
  have henum : ∀ e ∈ [entryBad, entryFoo], e.err = none := by
    intro e he
    simp only [List.mem_cons, List.mem_singleton, List.not_mem_nil, or_false] at he
    rcases he with rfl | rfl <;> rfl
  ⟨henum, (C7_failing_files_are_skipped fooLib [entryBad, entryFoo] [] henum).2.1,
    (C7_failing_files_are_skipped fooLib [entryBad, entryFoo] [] henum).2.2.1, by
    unfold ParseDir
    rw [ParseDirFrom_cons, walkFn_parse_fails fooLib entryBad "package" "syntax error" []
      NewFileSet rfl rfl (by decide) rfl (by simp [fooLib, srcFoo])]
    simp only []
    rw [ParseDirFrom_cons, walkFn_parsed fooLib entryFoo srcFoo fileFoo [] _ rfl rfl
      (by decide) rfl (by simp [fooLib]), walkFile_Visit]
    rfl⟩

theorem ParseDir_sample :
    ParseDir fooLib [entryBad, entryFoo] [] = .ok (tableFoo, none) := by
  unfold ParseDir
  rw [ParseDirFrom_cons, walkFn_parse_fails fooLib entryBad "package" "syntax error" []
    NewFileSet rfl rfl (by decide) rfl (by simp [fooLib, srcFoo])]
  simp only []
  rw [ParseDirFrom_cons, walkFn_parsed fooLib entryFoo srcFoo fileFoo [] _ rfl rfl
    (by decide) rfl (by simp [fooLib]), walkFile_Visit]
  rfl

theorem ParseDir_sample_denied :
    ParseDir fooLib [entryFoo, entryDenied, entryBad] [] =
      .ok (tableFoo, some "permission denied") := by
  unfold ParseDir
  rw [ParseDirFrom_cons, walkFn_parsed fooLib entryFoo srcFoo fileFoo [] NewFileSet rfl rfl
    (by decide) rfl (by simp [fooLib]), walkFile_Visit]
  rfl

/-! ## Errors of the walk -/

/-- C11: when `ParseDir` returns, the error it returns is the first error the enumeration
handed to the callback, and nil when there is none: it returns an error if and only if the
enumeration reports an error for some entry, and a failing read or parse never produces
one.  It returns when the function declarations of the files parsed before that error
have bodies. -/
theorem C11_ParseDir_error_is_enumeration_error (L : Lib) (es : List DirEntry)
    (T : GoMap FunctionDetails) :
    (∀ r, ParseDir L es T = .ok r →
        r.2 = firstEnumError es
          ∧ (r.2 ≠ none ↔ ∃ e ∈ es, e.err ≠ none)
          ∧ ((∀ e ∈ es, e.err = none) → r.2 = none))
      ∧ ((∀ p ∈ processed es, ∀ file, p.2.parsed L p.1 = some file →
            ∀ d ∈ file.Decls, d.hasBody = true) →
          ∃ T1, ParseDir L es T = .ok (T1, firstEnumError es)) := by
  have hiff : firstEnumError es ≠ none ↔ ∃ e ∈ es, e.err ≠ none := by
    unfold firstEnumError
    rw [Ne, List.findSome?_eq_none_iff]
    push_neg
    rfl
  refine ⟨fun r hr => ?_, fun hb => ?_⟩
  · obtain ⟨w, hw, _⟩ := ParseDir_writes_of_ok L es T r hr
    have he := walkWrites_error L es NewFileSet (w, r.2) hw
    simp only at he
    refine ⟨he, ?_, ?_⟩
    · rw [he]; exact hiff
    · intro hnone
      rw [he]
      exact firstEnumError_none es hnone
  · obtain ⟨w, hw⟩ := walkWrites_total L es NewFileSet hb
    exact ⟨applyWrites w T, by rw [ParseDir_eq_writes, hw]; rfl⟩

theorem walkFn_not_go (L : Lib) (e : DirEntry) (T : GoMap FunctionDetails) (fs : FileSet)
    (herr : e.err = none) (h : e.isDir = true ∨ HasSuffix e.path ".go" = false) :
    walkFn L e (T, fs) = .ok ((T, fs), none) := by
  unfold walkFn
  rcases h with h | h
  · simp [herr, h, pure, Except.pure]
  · by_cases hd : e.isDir = true
    · simp [herr, hd, pure, Except.pure]
    · simp [herr, hd, h, pure, Except.pure]

/-- C12: in a walk whose enumeration succeeds and whose entries are all directories or files
with a path that does not end in `.go`, `ParseDir` leaves the function table as it was and
returns no error; from the initial, empty table the result is the empty table. -/
theorem C12_no_source_files_table_unchanged (L : Lib) (es : List DirEntry)
    (T : GoMap FunctionDetails)
    (h : ∀ e ∈ es, e.err = none ∧ (e.isDir = true ∨ HasSuffix e.path ".go" = false)) :
    ParseDir L es T = .ok (T, none)
      ∧ ParseDir L es initialFunctionMap = .ok ([], none) := by
  have hgen : ∀ (es : List DirEntry) (fs : FileSet) (T : GoMap FunctionDetails),
      (∀ e ∈ es, e.err = none ∧ (e.isDir = true ∨ HasSuffix e.path ".go" = false)) →
        ParseDirFrom L fs es T = .ok (T, none) := by
    intro es
    induction es with
    | nil => intro fs T _; rfl
    | cons e rest ih =>
        intro fs T h
        have he := h e (List.mem_cons_self e rest)
        rw [ParseDirFrom_cons, walkFn_not_go L e T fs he.1 he.2]
        exact ih fs T (fun x hx => h x (List.mem_cons_of_mem e hx))
  exact ⟨hgen es NewFileSet T h, hgen es NewFileSet [] h⟩

theorem C12_no_source_files_table_unchanged_witness :
    (∀ e ∈ [entryDir, entryReadme],
        e.err = none ∧ (e.isDir = true ∨ HasSuffix e.path ".go" = false))
      ∧ ParseDir fooLib [entryDir, entryReadme] fnsFoo = .ok (fnsFoo, none)
      ∧ ParseDir fooLib [entryDir, entryReadme] initialFunctionMap = .ok ([], none) :=
  have h : ∀ e ∈ [entryDir, entryReadme],
      e.err = none ∧ (e.isDir = true ∨ HasSuffix e.path ".go" = false) := by
    intro e he
    simp only [List.mem_cons, List.mem_singleton, List.not_mem_nil, or_false] at he
    rcases he with rfl | rfl
    · exact ⟨rfl, Or.inl rfl⟩
    · exact ⟨rfl, Or.inr (by decide)⟩
  ⟨h, C12_no_source_files_table_unchanged fooLib [entryDir, entryReadme] fnsFoo h⟩

/-! ## Invariants of the table -/

/-- C16: after a walk by `ParseDir` that returns, with or without an enumeration error,
every key of the table before the walk is a key of the table after it; a key whose value
differs after the walk holds the record that a file processed in the walk produced under
that same composite key, and the value of a key is the one written last. The walk returns
when the function declarations of the processed files have bodies. -/
theorem C16_table_only_grows (L : Lib) (es : List DirEntry) (T : GoMap FunctionDetails) :
    (∀ r, ParseDir L es T = .ok r →
        (∀ k ∈ T.keys, k ∈ r.1.keys)
          ∧ (∀ k, r.1.get k ≠ T.get k →
              ∃ v, r.1.get k = some v ∧ WriteOf L NewFileSet es (k, v))
          ∧ ∃ w, walkWrites L NewFileSet es = .ok (w, r.2)
              ∧ (∀ k v, lastWrite w k = some v → r.1.get k = some v)
              ∧ (∀ k, lastWrite w k = none → r.1.get k = T.get k))
      ∧ ((∀ p ∈ processed es, ∀ file, p.2.parsed L p.1 = some file →
            ∀ d ∈ file.Decls, d.hasBody = true) →
          ∃ r, ParseDir L es T = .ok r) := by
  refine ⟨fun r hr => ?_, fun hb => ?_⟩
  · obtain ⟨w, hw, hT⟩ := ParseDir_writes_of_ok L es T r hr
    refine ⟨fun k hk => ?_, fun k hne => ?_, w, hw, fun k v hl => ?_, fun k hl => ?_⟩
    · rw [hT]; exact applyWrites_keys_mono w T k hk
    · cases hl : lastWrite w k with
      | none =>
          rw [hT, applyWrites_get_none w T k hl] at hne
          exact absurd rfl hne
      | some v =>
          refine ⟨v, by rw [hT]; exact applyWrites_get_some w T k v hl, ?_⟩
          exact walkWrites_mem L es NewFileSet w r.2 hw (k, v) (lastWrite_mem w k v hl)
    · rw [hT]; exact applyWrites_get_some w T k v hl
    · rw [hT]; exact applyWrites_get_none w T k hl
  · obtain ⟨w, hw⟩ := walkWrites_total L es NewFileSet hb
    exact ⟨_, by rw [ParseDir_eq_writes, hw]; rfl⟩

/-- C18: in the per-file map left by the analyzer the record under a key `k` has the name
`k`; every assignment `ParseDir` makes to the function table has the key
`p.Name (f)` built from the name of the record it stores, the package name `p` and the path
`f` of the file it comes from; so a table whose keys have that form keeps it through a
walk, as the initial table does. -/
theorem C18_key_name_consistency (L : Lib) :
    (∀ (file : File) (fns : GoMap FunctionDetails),
        Walk (Visit L) (.file file) [] = .ok fns →
          ∀ k r, fns.get k = some r → r.Name = k)
      ∧ (∀ (es : List DirEntry) (T : GoMap FunctionDetails),
          ParseDir L es T =
            (walkWrites L NewFileSet es).map (fun we => (applyWrites we.1 T, we.2)))
      ∧ (∀ (es : List DirEntry) (fs : FileSet) (w : List (String × FunctionDetails))
          (err : Option String),
          walkWrites L fs es = .ok (w, err) →
            ∀ kv ∈ w, ∃ p ∈ processedFrom fs es, ∃ file, p.2.parsed L p.1 = some file
              ∧ kv.1 = file.Name.Name ++ "." ++ kv.2.Name ++ " (" ++ p.2.path ++ ")")
      ∧ (∀ (es : List DirEntry) (T : GoMap FunctionDetails)
          (r : GoMap FunctionDetails × Option String),
          KeyNamed T → ParseDir L es T = .ok r → KeyNamed r.1)
      ∧ KeyNamed initialFunctionMap := by
  refine ⟨fun file fns hw k r h => perFile_name L file fns hw k r h,
    fun es T => ParseDir_eq_writes L es T,
    fun es fs w err hw kv hkv =>
      writeOf_key_named L fs es kv (walkWrites_mem L es fs w err hw kv hkv),
    ?_, ?_⟩
  · intro es T r hT hr k v hg
    obtain ⟨w, hw, hr1⟩ := ParseDir_writes_of_ok L es T r hr
    rw [hr1] at hg
    cases hl : lastWrite w k with
    | none =>
        rw [applyWrites_get_none w T k hl] at hg
        exact hT k v hg
    | some v2 =>
        rw [applyWrites_get_some w T k v2 hl] at hg
        simp only [Option.some.injEq] at hg
        subst hg
        obtain ⟨p, _, file, _, hk⟩ :=
          writeOf_key_named L NewFileSet es (k, v2)
            (walkWrites_mem L es NewFileSet w r.2 hw (k, v2) (lastWrite_mem w k v2 hl))
        exact ⟨file.Name.Name, p.2.path, hk⟩
  · intro k r h
    simp [initialFunctionMap, GoMap.get] at h

/-- C19: when a walk by `ParseDir` from a table returns a table, the same walk from that
table returns the same error and a table with the same keys in the same order and the same
value for every key: the same table (literally so when the first table has one entry per
key). -/
theorem C19_ParseDir_idempotent (L : Lib) (es : List DirEntry)
    (T T1 : GoMap FunctionDetails) (err : Option String)
    (h : ParseDir L es T = .ok (T1, err)) :
    ∃ T2, ParseDir L es T1 = .ok (T2, err)
      ∧ (∀ k, T2.get k = T1.get k)
      ∧ T2.keys = T1.keys
      ∧ (T.keys.Nodup → T2 = T1) := by
  obtain ⟨w, hw, hT1⟩ := ParseDir_writes_of_ok L es T (T1, err) h
  simp only at hw hT1
  have hget : ∀ k, (applyWrites w T1).get k = T1.get k := by
    intro k
    cases hl : lastWrite w k with
    | none => exact applyWrites_get_none w T1 k hl
    | some v =>
        rw [applyWrites_get_some w T1 k v hl, hT1, applyWrites_get_some w T k v hl]
  have hkeys : (applyWrites w T1).keys = T1.keys := by
    apply applyWrites_keys_eq
    intro kv hkv
    rw [hT1]
    exact applyWrites_keys_written w T kv hkv
  refine ⟨applyWrites w T1, by rw [ParseDir_eq_writes, hw]; rfl, hget, hkeys, ?_⟩
  intro hnd
  have hnd1 : T1.keys.Nodup := by rw [hT1]; exact applyWrites_nodup w T hnd
  exact GoMap.ext_of_keys _ _ hkeys (hkeys ▸ hnd1) hget

theorem C19_ParseDir_idempotent_witness :
    ParseDir fooLib [entryBad, entryFoo] [] = .ok (tableFoo, none)
      ∧ ∃ T2, ParseDir fooLib [entryBad, entryFoo] tableFoo = .ok (T2, none)
        ∧ (∀ k, T2.get k = tableFoo.get k)
        ∧ T2.keys = tableFoo.keys
        ∧ ((GoMap.keys ([] : GoMap FunctionDetails)).Nodup → T2 = tableFoo) :=
  ⟨ParseDir_sample, C19_ParseDir_idempotent fooLib [entryBad, entryFoo] [] tableFoo none
    ParseDir_sample⟩

end SeerGo
